import Mathlib

/-!
Verification of the django-GDPR anonymization core against its specification.

The development shallowly embeds the relevant Python functions of the
repository (`gdpr/encryption.py`, `gdpr/fields.py`, `gdpr/utils.py`,
`gdpr/anonymizers/base.py`, `gdpr/anonymizers/fields.py`,
`gdpr/anonymizers/model_anonymizers.py`, `gdpr/anonymizers/local/cs.py`,
`gdpr/purposes/default.py`) as executable Lean definitions.  Python strings
become `List Char`, Python arbitrary-precision integers become `Nat`/`Int`,
Python dictionaries become association lists preserving insertion order, and
raising code returns `Except`.
-/

namespace GDPR

/-! ## Cipher primitives (`gdpr/encryption.py`) -/

/-- `str.find`: index of the first occurrence of `c` in `s`, or `-1` when `c`
does not occur (Python `alphabet.find(char)`). -/
def strFind (s : List Char) (c : Char) : Int :=
  if c ∈ s then (s.indexOf c : Int) else -1

/-- The alphabet `NUMBERS = '1234567890'`. -/
def NUMBERS : List Char := "1234567890".toList

/-- The alphabet `NUMBERS_WITHOUT_ZERO = '123456789'`. -/
def NUMBERS_WITHOUT_ZERO : List Char := "123456789".toList

/-- The alphabet `JSON_SAFE_CHARS` (the untranslated base string of
`gdpr/encryption.py`). -/
def JSON_SAFE_CHARS : List Char :=
  " !#$%&()*+,-./0123456789:;<=>?@ABCDEFGHIJKLMNOPQRSTUVWXYZ[]^_`abcdefghijklmnopqrstuvwxyz{|}~".toList

/-- Cyclic advance of the key cursor: `key_index += 1; if key_index ==
len(key): key_index = 0`. -/
def advanceKey (keyLen ki : Nat) : Nat :=
  if ki + 1 = keyLen then 0 else ki + 1

/-- The loop of `translate_text`: walk the text, keeping the current key
cursor `ki`.  A character absent from the alphabet passes through unchanged
and does not advance the cursor; a character at alphabet index `num` is
replaced by `alphabet[(num ± alphabet.find(key[ki])) % len(alphabet)]` and
advances the cursor cyclically. -/
def translateTextGo (key alphabet : List Char) (encrypt : Bool) :
    Nat → List Char → List Char
  | _, [] => []
  | ki, c :: rest =>
    if strFind alphabet c ≠ -1 then
      alphabet.getD
          ((strFind alphabet c +
              (if encrypt then 1 else -1) * strFind alphabet (key.getD ki ' '))
            % (alphabet.length : Int)).toNat ' ' ::
        translateTextGo key alphabet encrypt (advanceKey key.length ki) rest
    else
      c :: translateTextGo key alphabet encrypt ki rest

/-- `translate_text(key, text, encrypt, alphabet)` of `gdpr/encryption.py`. -/
def translateText (key text : List Char) (encrypt : Bool) (alphabet : List Char) :
    List Char :=
  translateTextGo key alphabet encrypt 0 text

/-- `encrypt_text(key, text, alphabet)`. -/
def encryptText (key text : List Char) (alphabet : List Char) : List Char :=
  translateText key text true alphabet

/-- `decrypt_text(key, text, alphabet)`. -/
def decryptText (key text : List Char) (alphabet : List Char) : List Char :=
  translateText key text false alphabet

/-- `numerize_key(key) = sum(ord(key[i]) * 42 ** (i + 1))`, written as a fold
over the character list with the position tracked explicitly. -/
def numerizeKeyGo : Nat → List Char → Nat
  | _, [] => 0
  | i, c :: rest => c.toNat * 42 ^ (i + 1) + numerizeKeyGo (i + 1) rest

/-- `numerize_key` of `gdpr/encryption.py`. -/
def numerizeKey (key : List Char) : Nat := numerizeKeyGo 0 key

/-- The key cursor position after the loop consumed a list of characters:
characters outside the alphabet leave it unchanged, characters in the
alphabet advance it cyclically. -/
def keyCursorAfter (key alphabet : List Char) : Nat → List Char → Nat
  | ki, [] => ki
  | ki, c :: rest =>
    keyCursorAfter key alphabet
      (if strFind alphabet c ≠ -1 then advanceKey key.length ki else ki) rest

/-! ## Decimal digit machinery (Python `str`/`int` conversions)

Python renders numbers with `str` and reads them back with `int`/`Decimal`.
We model the decimal representation of a `Nat` explicitly: `decDigits n` is
the most-significant-first digit list of `n` (with `decDigits 0 = [0]`,
matching `str(0) = "0"`). -/

/-- Value of a least-significant-first digit list. -/
def ofDigitsLSB : List Nat → Nat
  | [] => 0
  | d :: ds => d + 10 * ofDigitsLSB ds

/-- Value of a most-significant-first digit list (how `int` reads a numeral). -/
def ofDigitsMSB (ds : List Nat) : Nat := ds.foldl (fun a d => 10 * a + d) 0

/-- Least-significant-first digits of `n`, with explicit fuel (`n` itself
suffices since `n / 10 < n`). -/
def lsbDigitsGo : Nat → Nat → List Nat
  | 0, _ => []
  | fuel + 1, n => if n = 0 then [] else n % 10 :: lsbDigitsGo fuel (n / 10)

/-- Most-significant-first decimal digits of `n`; `str(n)` digit by digit. -/
def decDigits (n : Nat) : List Nat :=
  if n = 0 then [0] else (lsbDigitsGo n n).reverse

/-- `len(str(n))` for a natural number. -/
def decimalLen (n : Nat) : Nat := (decDigits n).length

/-! ## Digit characters (Python `str`/`int` on numerals) -/

/-- The decimal digit character of `d` (for `d < 10`). -/
def digitToChar (d : Nat) : Char :=
  match d with
  | 0 => '0' | 1 => '1' | 2 => '2' | 3 => '3' | 4 => '4'
  | 5 => '5' | 6 => '6' | 7 => '7' | 8 => '8' | _ => '9'

/-- The value of a decimal digit character. -/
def charToDigit (c : Char) : Nat := c.toNat - 48

/-- `str(n)` of a natural number, character by character. -/
def natToChars (n : Nat) : List Char := (decDigits n).map digitToChar

/-- `str(n)` of a Python integer. -/
def intToChars (n : Int) : List Char :=
  if n < 0 then '-' :: natToChars n.natAbs else natToChars n.toNat

/-- `int(s)` on a string of decimal digit characters. -/
def charsToNat (s : List Char) : Nat :=
  s.foldl (fun a c => 10 * a + charToDigit c) 0

/-- `int(s)` on a decimal numeral with an optional leading minus sign. -/
def charsToInt (s : List Char) : Int :=
  if s.head? = some '-' then -(charsToNat (s.drop 1) : Int) else (charsToNat s : Int)

/-- `len(str(int(value)))` for an integer `value`. -/
def strIntLen (n : Int) : Nat := (intToChars n).length

/-! ## `translate_number` (`gdpr/encryption.py`)

`translate_number(key, number)` converts the number to its string, splits it
into sign / first digit / middle / (for decimals) last digit, translates the
first (and, when a decimal point is present, the last) digit with the
`NUMBERS_WITHOUT_ZERO` alphabet and the middle with the `NUMBERS` alphabet,
and converts back.  `translateNumberChars` is the string-level core;
`translateNumberInt` composes it with Python's `str`/`int` conversions. -/

def translateNumberChars (key s : List Char) (encrypt : Bool) : List Char :=
  if '-' ∈ s then
    if '.' ∈ s then
      s.take 1 ++ translateText key [s.getD 1 ' '] encrypt NUMBERS_WITHOUT_ZERO
        ++ translateText key ((s.drop 2).dropLast) encrypt NUMBERS
        ++ translateText key [s.getD (s.length - 1) ' '] encrypt NUMBERS_WITHOUT_ZERO
    else
      s.take 1 ++ translateText key [s.getD 1 ' '] encrypt NUMBERS_WITHOUT_ZERO
        ++ translateText key (s.drop 2) encrypt NUMBERS
  else
    if '.' ∈ s then
      translateText key (s.take 1) encrypt NUMBERS_WITHOUT_ZERO
        ++ translateText key ((s.drop 1).dropLast) encrypt NUMBERS
        ++ translateText key [s.getD (s.length - 1) ' '] encrypt NUMBERS_WITHOUT_ZERO
    else
      translateText key (s.take 1) encrypt NUMBERS_WITHOUT_ZERO
        ++ translateText key (s.drop 1) encrypt NUMBERS

/-- `translate_number` on a Python `int`: convert to string, translate, and
convert back with `int(...)`. -/
def translateNumberInt (key : List Char) (n : Int) (encrypt : Bool) : Int :=
  charsToInt (translateNumberChars key (intToChars n) encrypt)

/-! ## The `Fields` selection tree (`gdpr/fields.py`)

`Fields` keeps an ordered list of local field names and an insertion-ordered
mapping from relation names to nested `Fields`.  `Fields.sub` is the
functional rendition of `Fields.__isub__`: filter the local fields, subtract
recursively the relations present on both sides, then delete every relation
entry whose remaining tree has length zero. -/

inductive Fields where
  | mk (localFields : List String) (relatedFields : List (String × Fields))

/-- Lookup in the insertion-ordered `related_fields` dictionary. -/
def lookupRelated : List (String × Fields) → String → Option Fields
  | [], _ => none
  | (n, f) :: rest, name => if n = name then some f else lookupRelated rest name

def Fields.localFields : Fields → List String
  | .mk l _ => l

def Fields.relatedFields : Fields → List (String × Fields)
  | .mk _ r => r

/-- `Fields.__len__`: number of local fields plus number of relations. -/
def Fields.len : Fields → Nat
  | .mk l r => l.length + r.length

/-- `Fields.__isub__` as a function. -/
def Fields.sub : Fields → Fields → Fields
  | .mk loc rel, .mk oloc orel =>
    .mk (loc.filter (fun f => f ∉ oloc))
      ((rel.attach.map (fun p =>
          match lookupRelated orel p.1.1 with
          | some of => (p.1.1, Fields.sub p.1.2 of)
          | none => p.1)).filter (fun p => p.2.len ≠ 0))
termination_by a _ => sizeOf a
decreasing_by
  simp_wf
  rcases p with ⟨⟨n, f⟩, hm⟩
  have := List.sizeOf_lt_of_mem hm
  simp at this ⊢
  omega

/-! ## Purpose-level field filtering (`gdpr/purposes/default.py`)

`AbstractPurpose.get_filtered_fields` works on raw field matrices: a matrix
is either the sentinel string `"__ALL__"` or a tuple whose elements are field
names or `(relation_name, nested_matrix)` pairs.  `FM`/`FMElem` embed that
grammar.  Model metadata (an anonymizer's field names and every relation's
related model) is embedded as `MSpec`. -/

mutual
inductive FM where
  | all
  | mk (elems : List FMElem)
inductive FMElem where
  | fld (name : String)
  | rel (name : String) (sub : FM)
end

/-- The registered anonymizer data `get_filtered_fields` consults: the keys
of the model's anonymizer and the related model of each relation name. -/
inductive MSpec where
  | mk (keys : List String) (rels : List (String × MSpec))

def MSpec.keys : MSpec → List String
  | .mk k _ => k

def lookupMSpec : List (String × MSpec) → String → Option MSpec
  | [], _ => none
  | (n, s) :: rest, name => if n = name then some s else lookupMSpec rest name

/-- `getattr(model, k).rel.related_model`; an unknown name yields an empty
stand-in model (the Python code would fail there, outside the wf domain). -/
def MSpec.relatedModel : MSpec → String → MSpec
  | .mk _ rels, name => (lookupMSpec rels name).getD (.mk [] [])

/-- Python `len(...)` of a matrix value: tuples report their element count,
the string `"__ALL__"` its character count. -/
def fmLen : FM → Nat
  | .all => 7
  | .mk es => es.length

/-- `AbstractPurpose.get_local_fields`. -/
def getLocalFieldsFM (m : MSpec) : FM → List String
  | .all => m.keys
  | .mk es =>
    let localFields := es.filterMap (fun e =>
      match e with
      | .fld s => some s
      | .rel _ _ => none)
    if "__ALL__" ∈ localFields then m.keys else localFields

/-- The `(name, nested_matrix)` pairs of a matrix, in order. -/
def relPairsFM : FM → List (String × FM)
  | .all => []
  | .mk es => es.filterMap (fun e =>
      match e with
      | .fld _ => none
      | .rel n s => some (n, s))

/-- Python dictionary lookup on a pair list (the last value for a repeated
key wins, as in `{i[0]: i[1] for i in ...}`). -/
def lookupLastFM : List (String × FM) → String → Option FM
  | [], _ => none
  | (m, v) :: rest, n =>
    match lookupLastFM rest n with
    | some r => some r
    | none => if m = n then some v else none

/-- Insert into an insertion-ordered dictionary: a repeated key keeps its
first position but takes the new value. -/
def dictUpsert (acc : List (String × FM)) (n : String) (v : FM) : List (String × FM) :=
  if n ∈ acc.map Prod.fst then
    acc.map (fun p => if p.1 = n then (n, v) else p)
  else acc ++ [(n, v)]

/-- Collapse a pair list into an insertion-ordered dictionary. -/
def dictOfPairs (ps : List (String × FM)) : List (String × FM) :=
  ps.foldl (fun acc p => dictUpsert acc p.1 p.2) []

/-- `AbstractPurpose.get_related_fields` (the dict of relation pairs). -/
def getRelatedFieldsFM (fm : FM) : List (String × FM) :=
  dictOfPairs (relPairsFM fm)

/-- `AbstractPurpose.filter_local_fields`: keep the local fields no other
purpose claims. -/
def filterLocalFieldsFM (localFields : List String) (others : List (List String)) :
    List String :=
  localFields.filter (fun i => ¬ others.any (fun j => i ∈ j))

/-- `k in others_related_keys`: some other purpose also names this relation. -/
def sharedRelName (others : List FM) (n : String) : Bool :=
  others.any (fun o => n ∈ (getRelatedFieldsFM o).map Prod.fst)

/-- `others_actual = [i.related[k] for i in others if k in i.related]`. -/
def othersActualFM (others : List FM) (n : String) : List FM :=
  others.filterMap (fun o => lookupLastFM (getRelatedFieldsFM o) n)

/-- `AbstractPurpose.get_filtered_fields` together with
`filter_related_fields`: remove every other purpose's local fields, filter
shared relations recursively, and drop relation entries whose filtered
matrix is empty.  The per-pair recursive transform is applied before the
insertion-ordered dictionary collapse; this agrees with the source's
transform-after-collapse because the dictionary keeps the last value of a
repeated relation name and the transform depends only on the pair itself. -/
def getFilteredFields (m : MSpec) (fields : FM) (others : List FM) : FM :=
  match fields with
  | .all => FM.mk ((filterLocalFieldsFM m.keys
      (others.map (fun o => getLocalFieldsFM m o))).map FMElem.fld)
  | .mk es =>
    let localsF := filterLocalFieldsFM (getLocalFieldsFM m (.mk es))
      (others.map (fun o => getLocalFieldsFM m o))
    let pairsF := es.attach.map (fun e =>
      match e with
      | ⟨.fld s, _⟩ => FMElem.fld s
      | ⟨.rel n s, hmem⟩ =>
        FMElem.rel n
          (if sharedRelName others n then
            getFilteredFields (m.relatedModel n) s (othersActualFM others n)
          else s))
    let relatedF := (dictOfPairs (relPairsFM (.mk pairsF))).filter
      (fun p => 0 < fmLen p.2)
    FM.mk (localsF.map FMElem.fld ++ relatedF.map (fun p => FMElem.rel p.1 p.2))
termination_by sizeOf fields
decreasing_by
  simp_wf
  have := List.sizeOf_lt_of_mem hmem
  simp at this ⊢
  omega

/-- `AbstractPurpose.anonymize_obj`, reduced to the matrix it passes to the
model anonymizer: with no other active legal reason the purpose's own matrix
is applied in full, otherwise the filtered matrix. -/
def anonymizeObjMatrix (m : MSpec) (fields : FM) (otherActiveMatrices : List FM) : FM :=
  if otherActiveMatrices.isEmpty then fields
  else getFilteredFields m fields otherActiveMatrices

/-- The transform `filter_related_fields` applies to one relation pair. -/
def filterRelFM (m : MSpec) (others : List FM) (n : String) (s : FM) : FM :=
  if sharedRelName others n then
    getFilteredFields (m.relatedModel n) s (othersActualFM others n)
  else s

/-- The per-element form of `get_filtered_fields` on matrix elements. -/
def filterElemFM (m : MSpec) (others : List FM) : FMElem → FMElem
  | .fld s => .fld s
  | .rel n s => .rel n (filterRelFM m others n s)

/-! ## Field anonymizer value paths (`gdpr/anonymizers/base.py`)

A `FieldAnonymizerSpec` is the data of one `FieldAnonymizer` instance: its
reversibility flag, its resolved `_ignore_empty_values` / `_empty_values`
configuration (class defaults: ignore enabled and `[None]`, text-like
subclasses use `[None, '']`), and its `get_encrypted_value` /
`get_decrypted_value` transforms.  Python `None` is a value of `V` chosen by
the instantiation.  Raising `IrreversibleAnonymizationException` is modelled
as `Except.error ()`. -/

structure FieldAnonymizerSpec (V K : Type) where
  isReversibleFlag : Bool
  ignoreEmptyValues : Bool
  emptyValues : List V
  getEncryptedValue : V → K → V
  getDecryptedValue : V → K → V

/-- `FieldAnonymizer.get_is_value_empty`. -/
def getIsValueEmpty {V K : Type} [DecidableEq V] (a : FieldAnonymizerSpec V K)
    (value : V) : Bool :=
  a.ignoreEmptyValues && value ∈ a.emptyValues

/-- `FieldAnonymizer._get_anonymized_value_from_value`. -/
def getAnonymizedValueFromValue {V K : Type} [DecidableEq V]
    (a : FieldAnonymizerSpec V K) (value : V) (encryptionKey : K) : V :=
  if getIsValueEmpty a value then value
  else a.getEncryptedValue value encryptionKey

/-- `FieldAnonymizer._get_deanonymized_value_from_value`: the reversibility
check (`get_is_reversible(obj, raise_exception=True)`) runs before the empty
check and raises for a one-way anonymizer. -/
def getDeanonymizedValueFromValue {V K : Type} [DecidableEq V]
    (a : FieldAnonymizerSpec V K) (value : V) (encryptionKey : K) : Except Unit V :=
  if a.isReversibleFlag then
    if getIsValueEmpty a value then .ok value
    else .ok (a.getDecryptedValue value encryptionKey)
  else .error ()

/-! ## `ModelAnonymizerBase.update_obj` on one object
(`gdpr/anonymizers/model_anonymizers.py`)

The object's stored field values and its active `AnonymizedData` markers are
the state; the storage layer (Django ORM, transactions, reversion) is
abstracted into this state.  `update_obj`:
raise `IrreversibleAnonymizerException` when deanonymizing a model whose
`Meta.reversible_anonymization` is false; select candidate fields (for
anonymization the fields not yet marked, for deanonymization the marked
fields whose field anonymizer reports reversible); compute the whole update
dictionary from the current state; when non-empty, write all values and
update the markers. -/

structure ObjState (V : Type) where
  values : String → V
  marked : String → Bool

/-- `_perform_update`'s `setattr` loop over the update dictionary. -/
def applyUpdates {V : Type} (values : String → V) (upd : List (String × V)) :
    String → V :=
  upd.foldl (fun acc p => Function.update acc p.1 p.2) values

/-- `ModelAnonymizerBase.update_obj`, restricted to the local fields of one
object (the relation recursion re-enters the same function on other
objects). -/
def updateObj {V K : Type} [DecidableEq V]
    (anonymizers : String → FieldAnonymizerSpec V K)
    (modelReversibleAnonymization : Bool) (keyOf : String → K)
    (anonymization : Bool) (localFields : List String) (st : ObjState V) :
    Except Unit (ObjState V) :=
  if ¬ anonymization ∧ ¬ modelReversibleAnonymization then .error ()
  else
    let rawLocalFields :=
      if anonymization then localFields.filter (fun f => !(st.marked f))
      else localFields.filter
        (fun f => st.marked f && (anonymizers f).isReversibleFlag)
    if rawLocalFields = [] then .ok st
    else
      match (if anonymization then
          Except.ok (rawLocalFields.map (fun nm =>
            (nm, getAnonymizedValueFromValue (anonymizers nm) (st.values nm) (keyOf nm))))
        else
          rawLocalFields.mapM (fun nm =>
            (getDeanonymizedValueFromValue (anonymizers nm) (st.values nm)
              (keyOf nm)).map (fun v => (nm, v)))) with
      | .error e => .error e
      | .ok upd =>
        .ok ⟨applyUpdates st.values upd,
          fun n =>
            if anonymization then st.marked n || rawLocalFields.contains n
            else st.marked n && !(rawLocalFields.contains n)⟩

/-- `anonymize_obj` (local fields). -/
def anonymizeObjLocal {V K : Type} [DecidableEq V]
    (anonymizers : String → FieldAnonymizerSpec V K)
    (modelReversibleAnonymization : Bool) (keyOf : String → K)
    (localFields : List String) (st : ObjState V) : Except Unit (ObjState V) :=
  updateObj anonymizers modelReversibleAnonymization keyOf true localFields st

/-- `deanonymize_obj` (local fields). -/
def deanonymizeObjLocal {V K : Type} [DecidableEq V]
    (anonymizers : String → FieldAnonymizerSpec V K)
    (modelReversibleAnonymization : Bool) (keyOf : String → K)
    (localFields : List String) (st : ObjState V) : Except Unit (ObjState V) :=
  updateObj anonymizers modelReversibleAnonymization keyOf false localFields st

/-! ## The JSON tree codec (`gdpr/anonymizers/fields.py`,
`JSONFieldAnonymizer.anonymize_json_value`)

JSON values are embedded as a mutual inductive mirroring the Python types
the code dispatches on: `None`, `bool`, `int`, `float`, `str`, `dict`,
`list`.  A float is carried as its decimal representation; the code returns
floats unchanged ("We cannot safely anonymize floats").  Object member keys
are not translated, only the values. -/

mutual
inductive JsonValue where
  | null
  | bool (b : Bool)
  | int (n : Int)
  | float (repr : List Char)
  | str (s : List Char)
  | obj (members : JsonMembers)
  | arr (elems : JsonElems)
inductive JsonMembers where
  | nil
  | cons (key : List Char) (value : JsonValue) (rest : JsonMembers)
inductive JsonElems where
  | nil
  | cons (value : JsonValue) (rest : JsonElems)
end

mutual
/-- `JSONFieldAnonymizer.anonymize_json_value`: strings are text-translated
over `JSON_SAFE_CHARS`, ints are number-translated, floats and nulls pass
through, dicts and lists recurse over their values, and booleans are flipped
exactly when the numeric key derived from the encryption key is even. -/
def anonymizeJsonValue (key : List Char) (anonymize : Bool) : JsonValue → JsonValue
  | .null => .null
  | .str s => .str (translateText key s anonymize JSON_SAFE_CHARS)
  | .int n => .int (translateNumberInt key n anonymize)
  | .float r => .float r
  | .obj ms => .obj (anonymizeJsonMembers key anonymize ms)
  | .arr es => .arr (anonymizeJsonElems key anonymize es)
  | .bool b => if numerizeKey key % 2 == 0 then .bool (!b) else .bool b
def anonymizeJsonMembers (key : List Char) (anonymize : Bool) :
    JsonMembers → JsonMembers
  | .nil => .nil
  | .cons k v rest =>
    .cons k (anonymizeJsonValue key anonymize v) (anonymizeJsonMembers key anonymize rest)
def anonymizeJsonElems (key : List Char) (anonymize : Bool) : JsonElems → JsonElems
  | .nil => .nil
  | .cons v rest =>
    .cons (anonymizeJsonValue key anonymize v) (anonymizeJsonElems key anonymize rest)
end

/-! ## Czech account numbers (`gdpr/anonymizers/local/cs.py`)

`CzechAccountNumber.check_account_format` zero-pads the prefix to six and
the number to ten digits and checks both weighted checksums modulo 11.
`_brute_force_next`/`_brute_force_prev` walk to the following/preceding
number that passes the checksum, wrapping at ten digits; the smart codec
applies the numeric key as a step count in each direction.  The unbounded
Python `while` loops are embedded with explicit fuel; `10 ^ 10 + 10` steps
always suffice on the wf domain because `9999999999` passes the number
checksum. -/

def PRE_NUM_WEIGHTS : List Nat := [10, 5, 8, 4, 2, 1]

def NUM_WEIGHTS : List Nat := [6, 3, 7, 9, 10, 5, 8, 4, 2, 1]

/-- `'0' * (k - len(s)) + s` on digit lists. -/
def padZeros (k : Nat) (ds : List Nat) : List Nat :=
  List.replicate (k - ds.length) 0 ++ ds

/-- `sum(map(lambda x: x[0] * x[1], zip(digits, weights)))`. -/
def weightedSum (ds ws : List Nat) : Nat :=
  ((ds.zip ws).map (fun p => p.1 * p.2)).sum

/-- Number-part checksum of `check_account_format`. -/
def numChecksumValid (num : Nat) : Bool :=
  weightedSum (padZeros 10 (decDigits num)) NUM_WEIGHTS % 11 == 0

/-- Prefix-part checksum of `check_account_format` (`self.pre_num or 0`). -/
def preChecksumValid (preNum : Option Nat) : Bool :=
  weightedSum (padZeros 6 (decDigits (preNum.getD 0))) PRE_NUM_WEIGHTS % 11 == 0

/-- `CzechAccountNumber.check_account_format`. -/
def checkAccountFormat (preNum : Option Nat) (num : Nat) : Bool :=
  numChecksumValid num && preChecksumValid preNum

/-- The `while not check_account_format()` loop of `_brute_force_next`:
reset to zero on ten-digit overflow, then increment, until valid. -/
def bruteForceNextLoop (preNum : Option Nat) : Nat → Nat → Nat
  | 0, num => num
  | fuel + 1, num =>
    if checkAccountFormat preNum num then num
    else bruteForceNextLoop preNum fuel ((if 10 < decimalLen num then 0 else num) + 1)

/-- `CzechAccountNumber._brute_force_next`. -/
def bruteForceNextOne (preNum : Option Nat) (num : Nat) : Nat :=
  bruteForceNextLoop preNum (10 ^ 10 + 10)
    (if 10 < decimalLen (num + 1) then 0 else num + 1)

/-- The `while not check_account_format()` loop of `_brute_force_prev`:
reset to `int('9' * 10)` at zero, then decrement, until valid. -/
def bruteForcePrevLoop (preNum : Option Nat) : Nat → Nat → Nat
  | 0, num => num
  | fuel + 1, num =>
    if checkAccountFormat preNum num then num
    else bruteForcePrevLoop preNum fuel ((if num = 0 then 9999999999 else num) - 1)

/-- `CzechAccountNumber._brute_force_prev` (Python's transient `-1` is
covered by the `<= 0` reset, so saturating subtraction is observationally
identical). -/
def bruteForcePrevOne (preNum : Option Nat) (num : Nat) : Nat :=
  bruteForcePrevLoop preNum (10 ^ 10 + 10)
    (if num - 1 = 0 then 9999999999 else num - 1)

/-- `brute_force_next(n)`: `n` sequential forward steps. -/
def bruteForceNextN (preNum : Option Nat) : Nat → Nat → Nat
  | 0, num => num
  | n + 1, num => bruteForceNextN preNum n (bruteForceNextOne preNum num)

/-- `brute_force_prev(n)`: `n` sequential backward steps (the iteration is
bracketed from the outside; iterating one function associates either way). -/
def bruteForcePrevN (preNum : Option Nat) : Nat → Nat → Nat
  | 0, num => num
  | n + 1, num => bruteForcePrevOne preNum (bruteForcePrevN preNum n num)

/-! ## Numeric keys (`gdpr/utils.py`, `gdpr/anonymizers/base.py`) -/

/-- `get_number_guess_len(value) = len(str(int(value)))`, reduced by one when
even (the docstring calls it rounding to an odd length); the argument is the
`int(value)` of the Python value. -/
def getNumberGuessLen (value : Int) : Nat :=
  if strIntLen value % 2 ≠ 0 then strIntLen value else strIntLen value - 1

/-- `NumericFieldAnonymizer.get_numeric_encryption_key`. -/
def getNumericEncryptionKey (maxAnonymizationRange : Option Nat)
    (encryptionKey : List Char) (value : Option Int) : Nat :=
  match value with
  | none =>
    match maxAnonymizationRange with
    | none => numerizeKey encryptionKey
    | some r => numerizeKey encryptionKey % r
  | some v => numerizeKey encryptionKey % 10 ^ getNumberGuessLen v

/-- `str(Decimal)` of a well-formed decimal: optional sign, the integer
part, a decimal point and the fraction digit characters. -/
def decimalChars (neg : Bool) (intPart : Nat) (fracChars : List Char) : List Char :=
  (if neg then ['-'] else []) ++ natToChars intPart ++ '.' :: fracChars

/-! ## Concrete instances used by the claim witnesses and counterexamples -/

/-- A two-field anonymizer table: field "b" carries an irreversible
anonymizer, every other field a reversible shift. -/
def cexFieldAnonymizers : String → FieldAnonymizerSpec Int Unit := fun n =>
  { isReversibleFlag := if n = "b" then false else true
    ignoreEmptyValues := true
    emptyValues := []
    getEncryptedValue := fun v _ => v + 1
    getDecryptedValue := fun v _ => v - 1 }

/-- An object with both fields already marked anonymized. -/
def cexState : ObjState Int := ⟨fun n => if n = "a" then 5 else 7, fun _ => true⟩

/-- The state `update_obj` produces when deanonymizing `cexState` over the
selection `["a", "b"]`. -/
def cexStateAfter : ObjState Int :=
  ⟨applyUpdates cexState.values
      ((["a", "b"].filter (fun g => cexState.marked g &&
          (cexFieldAnonymizers g).isReversibleFlag)).map
        (fun nm => (nm,
          if getIsValueEmpty (cexFieldAnonymizers nm) (cexState.values nm)
          then cexState.values nm
          else (cexFieldAnonymizers nm).getDecryptedValue (cexState.values nm) ()))),
   fun n => cexState.marked n && !((["a", "b"].filter (fun g => cexState.marked g &&
       (cexFieldAnonymizers g).isReversibleFlag)).contains n)⟩

/-- A single reversible anonymizer used by the idempotence witness. -/
def exAnons : String → FieldAnonymizerSpec Int Unit := fun _ =>
  { isReversibleFlag := true
    ignoreEmptyValues := true
    emptyValues := []
    getEncryptedValue := fun v _ => v + 1
    getDecryptedValue := fun v _ => v - 1 }

/-- A fresh object: nothing anonymized yet. -/
def exState : ObjState Int := ⟨fun _ => 5, fun _ => false⟩

/-- The state after anonymizing field "a" of `exState`. -/
def exStateOnce : ObjState Int :=
  ⟨applyUpdates exState.values
      ((["a"].filter (fun f => !(exState.marked f))).map
        (fun nm => (nm, getAnonymizedValueFromValue (exAnons nm) (exState.values nm) ()))),
   fun n => exState.marked n || (["a"].filter (fun f => !(exState.marked f))).contains n⟩

/-- An irreversible anonymizer whose empty values hold `none`. -/
def cexEmptySpec : FieldAnonymizerSpec (Option Int) Unit :=
  { isReversibleFlag := false
    ignoreEmptyValues := true
    emptyValues := [none]
    getEncryptedValue := fun _ _ => some 1
    getDecryptedValue := fun _ _ => some 2 }

/-- A reversible text-like anonymizer: empty values `none` and the empty
string. -/
def exEmptySpec : FieldAnonymizerSpec (Option String) Unit :=
  { isReversibleFlag := true
    ignoreEmptyValues := true
    emptyValues := [none, some ""]
    getEncryptedValue := fun _ _ => some "x"
    getDecryptedValue := fun _ _ => some "y" }

/-! ## Basic lemmas about `strFind` and the translation loop -/

theorem strFind_of_not_mem {s : List Char} {c : Char} (h : c ∉ s) :
    strFind s c = -1 := by
  simp [strFind, h]

theorem strFind_of_mem {s : List Char} {c : Char} (h : c ∈ s) :
    strFind s c = (s.indexOf c : Int) := by
  simp [strFind, h]

theorem strFind_nonneg_of_mem {s : List Char} {c : Char} (h : c ∈ s) :
    0 ≤ strFind s c := by
  rw [strFind_of_mem h]; exact Int.ofNat_nonneg _

theorem strFind_lt_of_mem {s : List Char} {c : Char} (h : c ∈ s) :
    strFind s c < (s.length : Int) := by
  rw [strFind_of_mem h]
  exact_mod_cast List.indexOf_lt_length.mpr h

theorem strFind_ne_neg_one_of_mem {s : List Char} {c : Char} (h : c ∈ s) :
    strFind s c ≠ -1 := by
  have := strFind_nonneg_of_mem h
  omega

theorem strFind_eq_neg_one_iff {s : List Char} {c : Char} :
    strFind s c = -1 ↔ c ∉ s := by
  constructor
  · intro h hc
    exact absurd h (strFind_ne_neg_one_of_mem hc)
  · exact strFind_of_not_mem

/-- The character the loop emits for an in-alphabet input character is again
in the alphabet. -/
theorem getD_mem_of_lt {s : List Char} {n : Nat} (h : n < s.length) :
    s.getD n ' ' ∈ s := by
  rw [List.getD_eq_getElem s ' ' h]
  exact List.getElem_mem h

/-- On a `Nodup` alphabet, the index of the `n`-th character is `n`. -/
theorem indexOf_getD {s : List Char} (hs : s.Nodup) {n : Nat} (h : n < s.length) :
    s.indexOf (s.getD n ' ') = n := by
  rw [List.getD_eq_getElem s ' ' h]
  exact List.indexOf_getElem hs n h

/-- Key fact for the round trip: with `0 ≤ i < L`, shifting by `k` modulo `L`
and then unshifting by `k` modulo `L` returns `i`. -/
theorem emod_shift_unshift {i k L : Int} (h0 : 0 ≤ i) (hiL : i < L) :
    ((i + k) % L - k) % L = i := by
  have h1 : (i + k) % L % L = (i + k) % L := Int.emod_emod_of_dvd _ dvd_rfl
  have h2 : ((i + k) % L - k) % L = ((i + k) - k) % L := by
    have : (i + k) % L ≡ i + k [ZMOD L] := h1
    have h3 : (i + k) % L - k ≡ (i + k) - k [ZMOD L] := Int.ModEq.sub_right k this
    exact h3
  rw [h2, add_sub_cancel_right, Int.emod_eq_of_lt h0 hiL]

theorem getD_indexOf {s : List Char} {c : Char} (h : c ∈ s) :
    s.getD (s.indexOf c) ' ' = c := by
  have hlt : s.indexOf c < s.length := List.indexOf_lt_length.mpr h
  rw [List.getD_eq_getElem s ' ' hlt]
  exact List.getElem_indexOf hlt

/-- Step equation of the loop for a character of the alphabet. -/
theorem translateTextGo_cons_mem (key alphabet : List Char) (encrypt : Bool)
    (ki : Nat) (c : Char) (rest : List Char) (h : strFind alphabet c ≠ -1) :
    translateTextGo key alphabet encrypt ki (c :: rest) =
      alphabet.getD
          ((strFind alphabet c +
              (if encrypt then 1 else -1) * strFind alphabet (key.getD ki ' '))
            % (alphabet.length : Int)).toNat ' ' ::
        translateTextGo key alphabet encrypt (advanceKey key.length ki) rest := by
  rw [translateTextGo, if_pos h]

/-- Step equation of the loop for a character outside the alphabet. -/
theorem translateTextGo_cons_not_mem (key alphabet : List Char) (encrypt : Bool)
    (ki : Nat) (c : Char) (rest : List Char) (h : c ∉ alphabet) :
    translateTextGo key alphabet encrypt ki (c :: rest) =
      c :: translateTextGo key alphabet encrypt ki rest := by
  rw [translateTextGo, if_neg]
  simp [strFind_of_not_mem h]

/-- Round trip of the translation loop at any cursor position: decrypting the
encryption of any text with the same key and a duplicate-free alphabet
returns the text. -/
theorem translateTextGo_roundtrip (key alphabet : List Char) (ha : alphabet.Nodup)
    (text : List Char) :
    ∀ ki : Nat,
      translateTextGo key alphabet false ki
        (translateTextGo key alphabet true ki text) = text := by
  induction text with
  | nil => intro ki; rfl
  | cons c rest ih =>
    intro ki
    by_cases hc : c ∈ alphabet
    · have hL : 0 < alphabet.length := List.length_pos.mpr (List.ne_nil_of_mem hc)
      have hLpos : (0 : Int) < (alphabet.length : Int) := by exact_mod_cast hL
      have hnum0 : (0 : Int) ≤ strFind alphabet c := strFind_nonneg_of_mem hc
      have hnumL : strFind alphabet c < (alphabet.length : Int) := strFind_lt_of_mem hc
      rw [translateTextGo_cons_mem key alphabet true ki c rest
        (strFind_ne_neg_one_of_mem hc)]
      set k : Int := strFind alphabet (key.getD ki ' ') with hk
      set num2 : Int :=
        (strFind alphabet c + (if true then 1 else -1) * k) % (alphabet.length : Int)
        with hnum2
      have h20 : 0 ≤ num2 := Int.emod_nonneg _ (by omega)
      have h2L : num2 < (alphabet.length : Int) := Int.emod_lt_of_pos _ hLpos
      have h2nat : num2.toNat < alphabet.length := by omega
      have hcmem : alphabet.getD num2.toNat ' ' ∈ alphabet := getD_mem_of_lt h2nat
      rw [translateTextGo_cons_mem key alphabet false ki _ _
        (strFind_ne_neg_one_of_mem hcmem)]
      have hfind2 : strFind alphabet (alphabet.getD num2.toNat ' ') = num2 := by
        rw [strFind_of_mem hcmem, indexOf_getD ha h2nat]
        omega
      have hify : (if false then (1 : Int) else -1) = -1 := rfl
      have hnum2e : num2 = (strFind alphabet c + k) % (alphabet.length : Int) := by
        rw [hnum2]; norm_num
      have hshift :
          (strFind alphabet (alphabet.getD num2.toNat ' ') +
              (if false then 1 else -1) * k) % (alphabet.length : Int) =
            strFind alphabet c := by
        rw [hfind2, hify, hnum2e, neg_one_mul, ← sub_eq_add_neg]
        exact emod_shift_unshift hnum0 hnumL
      rw [hshift]
      have hback : alphabet.getD (strFind alphabet c).toNat ' ' = c := by
        rw [strFind_of_mem hc]
        simpa using getD_indexOf hc
      rw [hback, ih (advanceKey key.length ki)]
    · rw [translateTextGo_cons_not_mem key alphabet true ki c rest hc,
        translateTextGo_cons_not_mem key alphabet false ki c _ hc, ih ki]

/-- Length preservation of the translation loop. -/
theorem translateTextGo_length (key alphabet : List Char) (encrypt : Bool)
    (text : List Char) :
    ∀ ki : Nat,
      (translateTextGo key alphabet encrypt ki text).length = text.length := by
  induction text with
  | nil => intro ki; rfl
  | cons c rest ih =>
    intro ki
    by_cases hc : c ∈ alphabet
    · rw [translateTextGo_cons_mem key alphabet encrypt ki c rest
        (strFind_ne_neg_one_of_mem hc)]
      simp [ih]
    · rw [translateTextGo_cons_not_mem key alphabet encrypt ki c rest hc]
      simp [ih]

/-- The translation loop processes an appended text as the first part
followed by the second part started at the advanced cursor. -/
theorem translateTextGo_append (key alphabet : List Char) (encrypt : Bool)
    (xs : List Char) :
    ∀ (ys : List Char) (ki : Nat),
      translateTextGo key alphabet encrypt ki (xs ++ ys) =
        translateTextGo key alphabet encrypt ki xs ++
          translateTextGo key alphabet encrypt (keyCursorAfter key alphabet ki xs) ys := by
  induction xs with
  | nil => intro ys ki; rfl
  | cons c rest ih =>
    intro ys ki
    by_cases hc : c ∈ alphabet
    · have h := strFind_ne_neg_one_of_mem hc
      rw [List.cons_append, translateTextGo_cons_mem key alphabet encrypt ki c _ h,
        translateTextGo_cons_mem key alphabet encrypt ki c rest h, List.cons_append,
        ih ys (advanceKey key.length ki)]
      simp [keyCursorAfter, h]
    · have h := strFind_of_not_mem hc
      rw [List.cons_append, translateTextGo_cons_not_mem key alphabet encrypt ki c _ hc,
        translateTextGo_cons_not_mem key alphabet encrypt ki c rest hc, List.cons_append,
        ih ys ki]
      simp [keyCursorAfter, h]

/-- Characters outside the alphabet appear unchanged at their original
positions in the output. -/
theorem translateTextGo_getD_not_mem (key alphabet : List Char) (encrypt : Bool)
    (text : List Char) :
    ∀ (ki i : Nat), i < text.length → text.getD i ' ' ∉ alphabet →
      (translateTextGo key alphabet encrypt ki text).getD i ' ' = text.getD i ' ' := by
  induction text with
  | nil => intro ki i hi; simp at hi
  | cons c rest ih =>
    intro ki i hi hmem
    cases i with
    | zero =>
      simp only [List.getD_cons_zero] at hmem ⊢
      rw [translateTextGo_cons_not_mem key alphabet encrypt ki c rest hmem]
      rfl
    | succ j =>
      simp only [List.getD_cons_succ] at hmem ⊢
      have hj : j < rest.length := by simpa using hi
      by_cases hc : c ∈ alphabet
      · rw [translateTextGo_cons_mem key alphabet encrypt ki c rest
          (strFind_ne_neg_one_of_mem hc)]
        simpa using ih (advanceKey key.length ki) j hj hmem
      · rw [translateTextGo_cons_not_mem key alphabet encrypt ki c rest hc]
        simpa using ih ki j hj hmem

/-- Characters of the alphabet translate to characters of the alphabet. -/
theorem translateTextGo_getD_mem (key alphabet : List Char) (encrypt : Bool)
    (text : List Char) :
    ∀ (ki i : Nat), i < text.length → text.getD i ' ' ∈ alphabet →
      (translateTextGo key alphabet encrypt ki text).getD i ' ' ∈ alphabet := by
  induction text with
  | nil => intro ki i hi; simp at hi
  | cons c rest ih =>
    intro ki i hi hmem
    cases i with
    | zero =>
      simp only [List.getD_cons_zero] at hmem
      have hL : 0 < alphabet.length := List.length_pos.mpr (List.ne_nil_of_mem hmem)
      have hLpos : (0 : Int) < (alphabet.length : Int) := by exact_mod_cast hL
      rw [translateTextGo_cons_mem key alphabet encrypt ki c rest
        (strFind_ne_neg_one_of_mem hmem)]
      have h20 : 0 ≤ (strFind alphabet c +
          (if encrypt then 1 else -1) * strFind alphabet (key.getD ki ' '))
            % (alphabet.length : Int) := Int.emod_nonneg _ (by omega)
      have h2L : (strFind alphabet c +
          (if encrypt then 1 else -1) * strFind alphabet (key.getD ki ' '))
            % (alphabet.length : Int) < (alphabet.length : Int) :=
        Int.emod_lt_of_pos _ hLpos
      simp only [List.getD_cons_zero]
      exact getD_mem_of_lt (by omega)
    | succ j =>
      simp only [List.getD_cons_succ] at hmem ⊢
      have hj : j < rest.length := by simpa using hi
      by_cases hc : c ∈ alphabet
      · rw [translateTextGo_cons_mem key alphabet encrypt ki c rest
          (strFind_ne_neg_one_of_mem hc)]
        simpa using ih (advanceKey key.length ki) j hj hmem
      · rw [translateTextGo_cons_not_mem key alphabet encrypt ki c rest hc]
        simpa using ih ki j hj hmem

theorem ofDigitsMSB_append_one (l : List Nat) (d : Nat) :
    ofDigitsMSB (l ++ [d]) = 10 * ofDigitsMSB l + d := by
  simp [ofDigitsMSB, List.foldl_append]

theorem ofDigitsMSB_reverse (l : List Nat) :
    ofDigitsMSB l.reverse = ofDigitsLSB l := by
  induction l with
  | nil => rfl
  | cons d ds ih =>
    rw [List.reverse_cons, ofDigitsMSB_append_one, ih, ofDigitsLSB]
    ring

theorem lsbDigitsGo_ofDigitsLSB :
    ∀ (fuel n : Nat), n ≤ fuel → ofDigitsLSB (lsbDigitsGo fuel n) = n := by
  intro fuel
  induction fuel with
  | zero => intro n hn; interval_cases n; rfl
  | succ f ih =>
    intro n hn
    by_cases h0 : n = 0
    · simp [lsbDigitsGo, h0, ofDigitsLSB]
    · rw [lsbDigitsGo, if_neg h0, ofDigitsLSB, ih (n / 10) (by omega)]
      omega

theorem lsbDigitsGo_lt_ten :
    ∀ (fuel n d : Nat), d ∈ lsbDigitsGo fuel n → d < 10 := by
  intro fuel
  induction fuel with
  | zero => intro n d hd; simp [lsbDigitsGo] at hd
  | succ f ih =>
    intro n d hd
    by_cases h0 : n = 0
    · simp [lsbDigitsGo, h0] at hd
    · rw [lsbDigitsGo, if_neg h0] at hd
      rcases List.mem_cons.mp hd with h | h
      · omega
      · exact ih (n / 10) d h

theorem lsbDigitsGo_ne_nil :
    ∀ (fuel n : Nat), n ≠ 0 → n ≤ fuel → lsbDigitsGo fuel n ≠ [] := by
  intro fuel n h0 hn
  cases fuel with
  | zero => omega
  | succ f => rw [lsbDigitsGo, if_neg h0]; simp

theorem getLast_opt_cons_of_ne_nil {α : Type} {l : List α} (a : α) (h : l ≠ []) :
    (a :: l).getLast? = l.getLast? := by
  cases l with
  | nil => exact absurd rfl h
  | cons b bs => exact List.getLast?_cons_cons

theorem lsbDigitsGo_getLast :
    ∀ (fuel n : Nat), n ≠ 0 → n ≤ fuel →
      ∀ d, (lsbDigitsGo fuel n).getLast? = some d → d ≠ 0 := by
  intro fuel
  induction fuel with
  | zero => intro n h0 hn; omega
  | succ f ih =>
    intro n h0 hn d hd
    rw [lsbDigitsGo, if_neg h0] at hd
    by_cases hq : n / 10 = 0
    · have : lsbDigitsGo f (n / 10) = [] := by
        cases f with
        | zero => rfl
        | succ g => rw [lsbDigitsGo, if_pos hq]
      rw [this] at hd
      simp at hd
      omega
    · have hne : lsbDigitsGo f (n / 10) ≠ [] := lsbDigitsGo_ne_nil f (n / 10) hq (by omega)
      rw [getLast_opt_cons_of_ne_nil _ hne] at hd
      exact ih (n / 10) hq (by omega) d hd

/-- A digit list whose most significant digit is nonzero has nonzero value. -/
theorem ofDigitsLSB_ne_zero :
    ∀ (m : List Nat), (∀ x, m.getLast? = some x → x ≠ 0) → m ≠ [] →
      ofDigitsLSB m ≠ 0 := by
  intro m
  induction m with
  | nil => intro _ h; exact absurd rfl h
  | cons x xs ihm =>
    intro hlast _
    cases hxs : xs with
    | nil =>
      subst hxs
      have := hlast x (by simp)
      simp [ofDigitsLSB]
      omega
    | cons y ys =>
      subst hxs
      have hne : (y :: ys : List Nat) ≠ [] := by simp
      have hys : ofDigitsLSB (y :: ys) ≠ 0 := by
        apply ihm _ hne
        intro x2 hx2
        apply hlast x2
        rw [getLast_opt_cons_of_ne_nil _ hne]
        exact hx2
      rw [ofDigitsLSB]
      omega

theorem lsbDigitsGo_of_value :
    ∀ (l : List Nat) (fuel : Nat), l ≠ [] → (∀ d ∈ l, d < 10) →
      (∀ d, l.getLast? = some d → d ≠ 0) → ofDigitsLSB l ≤ fuel →
      lsbDigitsGo fuel (ofDigitsLSB l) = l := by
  intro l
  induction l with
  | nil => intro fuel h; exact absurd rfl h
  | cons d ds ih =>
    intro fuel _ hlt hlast hfuel
    have hd10 : d < 10 := hlt d (List.mem_cons_self d ds)
    cases hds : ds with
    | nil =>
      subst hds
      have hd0 : d ≠ 0 := hlast d (by simp)
      have hval : ofDigitsLSB [d] = d := by simp [ofDigitsLSB]
      rw [hval] at hfuel ⊢
      cases fuel with
      | zero => omega
      | succ f =>
        rw [lsbDigitsGo, if_neg hd0]
        have h1 : d % 10 = d := by omega
        have h2 : d / 10 = 0 := by omega
        rw [h1, h2]
        cases f with
        | zero => rfl
        | succ g => rw [lsbDigitsGo, if_pos rfl]
    | cons e es =>
      subst hds
      have htail0 : ofDigitsLSB (e :: es) ≠ 0 := by
        apply ofDigitsLSB_ne_zero (e :: es) _ (by simp)
        intro x hx
        apply hlast x
        rw [getLast_opt_cons_of_ne_nil _ (by simp : (e :: es : List Nat) ≠ [])]
        exact hx
      have hval : ofDigitsLSB (d :: e :: es) = d + 10 * ofDigitsLSB (e :: es) := rfl
      rw [hval] at hfuel ⊢
      have hne0 : d + 10 * ofDigitsLSB (e :: es) ≠ 0 := by omega
      cases fuel with
      | zero => omega
      | succ f =>
        rw [lsbDigitsGo, if_neg hne0]
        have h1 : (d + 10 * ofDigitsLSB (e :: es)) % 10 = d := by omega
        have h2 : (d + 10 * ofDigitsLSB (e :: es)) / 10 = ofDigitsLSB (e :: es) := by
          omega
        rw [h1, h2]
        congr 1
        apply ih f (by simp) (fun x hx => hlt x (List.mem_cons_of_mem d hx))
        · intro x hx
          apply hlast x
          rw [getLast_opt_cons_of_ne_nil _ (by simp : (e :: es : List Nat) ≠ [])]
          exact hx
        · omega

theorem lsbDigitsGo_length_le :
    ∀ (fuel n k : Nat), n ≤ fuel → n < 10 ^ k → (lsbDigitsGo fuel n).length ≤ k := by
  intro fuel
  induction fuel with
  | zero => intro n k h1 h2; cases n <;> simp [lsbDigitsGo]
  | succ f ih =>
    intro n k h1 h2
    by_cases h0 : n = 0
    · simp [lsbDigitsGo, h0]
    · rw [lsbDigitsGo, if_neg h0]
      cases k with
      | zero => simp at h2; omega
      | succ j =>
        simp only [List.length_cons]
        have : n / 10 < 10 ^ j := by
          have hpow : (10 : Nat) ^ (j + 1) = 10 ^ j * 10 := by ring
          rw [hpow] at h2
          omega
        have := ih (n / 10) j (by omega) this
        omega

theorem lsbDigitsGo_length_gt :
    ∀ (fuel n k : Nat), n ≤ fuel → 10 ^ k ≤ n → k < (lsbDigitsGo fuel n).length := by
  intro fuel
  induction fuel with
  | zero =>
    intro n k h1 h2
    have : 0 < 10 ^ k := Nat.pos_pow_of_pos k (by omega)
    omega
  | succ f ih =>
    intro n k h1 h2
    have hn0 : n ≠ 0 := by
      have : 0 < 10 ^ k := Nat.pos_pow_of_pos k (by omega)
      omega
    rw [lsbDigitsGo, if_neg hn0]
    cases k with
    | zero => simp
    | succ j =>
      simp only [List.length_cons]
      have : 10 ^ j ≤ n / 10 := by
        have hpow : (10 : Nat) ^ (j + 1) = 10 ^ j * 10 := by ring
        rw [hpow] at h2
        omega
      have := ih (n / 10) j (by omega) this
      omega

theorem decDigits_ne_nil (n : Nat) : decDigits n ≠ [] := by
  by_cases h0 : n = 0
  · simp [decDigits, h0]
  · rw [decDigits, if_neg h0]
    simpa using lsbDigitsGo_ne_nil n n h0 (le_refl n)

theorem ofDigitsMSB_decDigits (n : Nat) : ofDigitsMSB (decDigits n) = n := by
  by_cases h0 : n = 0
  · simp [decDigits, h0, ofDigitsMSB]
  · rw [decDigits, if_neg h0, ofDigitsMSB_reverse]
    exact lsbDigitsGo_ofDigitsLSB n n (le_refl n)

theorem decDigits_lt_ten (n : Nat) : ∀ d ∈ decDigits n, d < 10 := by
  by_cases h0 : n = 0
  · simp [decDigits, h0]
  · rw [decDigits, if_neg h0]
    intro d hd
    exact lsbDigitsGo_lt_ten n n d (List.mem_reverse.mp hd)

theorem decDigits_head_ne_zero {n : Nat} (h0 : n ≠ 0) :
    ∀ d, (decDigits n).head? = some d → d ≠ 0 := by
  rw [decDigits, if_neg h0]
  intro d hd
  rw [List.head?_reverse] at hd
  exact lsbDigitsGo_getLast n n h0 (le_refl n) d hd

theorem ofDigitsMSB_ne_zero {ds : List Nat} (hne : ds ≠ [])
    (hhead : ∀ d, ds.head? = some d → d ≠ 0) : ofDigitsMSB ds ≠ 0 := by
  rw [← List.reverse_reverse ds, ofDigitsMSB_reverse]
  apply ofDigitsLSB_ne_zero
  · intro x hx
    rw [List.getLast?_reverse] at hx
    exact hhead x hx
  · simpa using hne

theorem decDigits_of_value {ds : List Nat} (hne : ds ≠ [])
    (hlt : ∀ d ∈ ds, d < 10) (hhead : ∀ d, ds.head? = some d → d ≠ 0) :
    decDigits (ofDigitsMSB ds) = ds := by
  have hn0 : ofDigitsMSB ds ≠ 0 := ofDigitsMSB_ne_zero hne hhead
  rw [decDigits, if_neg hn0]
  have hval : ofDigitsMSB ds = ofDigitsLSB ds.reverse := by
    rw [← ofDigitsMSB_reverse, List.reverse_reverse]
  have hgo : lsbDigitsGo (ofDigitsMSB ds) (ofDigitsLSB ds.reverse) = ds.reverse := by
    apply lsbDigitsGo_of_value ds.reverse (ofDigitsMSB ds) (by simpa using hne)
    · intro d hd
      exact hlt d (List.mem_reverse.mp hd)
    · intro d hd
      rw [List.getLast?_reverse] at hd
      exact hhead d hd
    · omega
  rw [hval] at hgo ⊢
  rw [hgo, List.reverse_reverse]

theorem decimalLen_le {n k : Nat} (hk : 1 ≤ k) (h : n < 10 ^ k) :
    decimalLen n ≤ k := by
  by_cases h0 : n = 0
  · simp [decimalLen, decDigits, h0]
    omega
  · rw [decimalLen, decDigits, if_neg h0]
    simpa using lsbDigitsGo_length_le n n k (le_refl n) h

theorem decimalLen_gt {n k : Nat} (h : 10 ^ k ≤ n) : k < decimalLen n := by
  have h0 : n ≠ 0 := by
    have : 0 < 10 ^ k := Nat.pos_pow_of_pos k (by omega)
    omega
  rw [decimalLen, decDigits, if_neg h0]
  simpa using lsbDigitsGo_length_gt n n k (le_refl n) h

theorem charToDigit_digitToChar {d : Nat} (h : d < 10) :
    charToDigit (digitToChar d) = d := by
  interval_cases d <;> rfl

theorem digitToChar_mem_NUMBERS {d : Nat} (h : d < 10) :
    digitToChar d ∈ NUMBERS := by
  interval_cases d <;> decide

theorem digitToChar_mem_NWZ {d : Nat} (h0 : d ≠ 0) (h : d < 10) :
    digitToChar d ∈ NUMBERS_WITHOUT_ZERO := by
  interval_cases d <;> first | omega | decide

theorem mem_NUMBERS_props :
    ∀ c ∈ NUMBERS, digitToChar (charToDigit c) = c ∧ charToDigit c < 10 := by
  decide

theorem mem_NWZ_props :
    ∀ c ∈ NUMBERS_WITHOUT_ZERO, c ∈ NUMBERS ∧ charToDigit c ≠ 0 := by
  decide

theorem charsToNat_map {ds : List Nat} (hlt : ∀ d ∈ ds, d < 10) :
    charsToNat (ds.map digitToChar) = ofDigitsMSB ds := by
  rw [charsToNat, ofDigitsMSB]
  have : ∀ (l : List Nat) (a : Nat), (∀ d ∈ l, d < 10) →
      (l.map digitToChar).foldl (fun a c => 10 * a + charToDigit c) a =
        l.foldl (fun a d => 10 * a + d) a := by
    intro l
    induction l with
    | nil => intro a _; rfl
    | cons d l2 ih =>
      intro a hl
      simp only [List.map_cons, List.foldl_cons]
      rw [charToDigit_digitToChar (hl d (List.mem_cons_self d l2))]
      exact ih _ (fun x hx => hl x (List.mem_cons_of_mem d hx))
  exact this ds 0 hlt

theorem charsToNat_natToChars (n : Nat) : charsToNat (natToChars n) = n := by
  rw [natToChars, charsToNat_map (decDigits_lt_ten n), ofDigitsMSB_decDigits]

theorem natToChars_mem (n : Nat) : ∀ c ∈ natToChars n, c ∈ NUMBERS := by
  intro c hc
  rcases List.mem_map.mp hc with ⟨d, hd, rfl⟩
  exact digitToChar_mem_NUMBERS (decDigits_lt_ten n d hd)

theorem natToChars_ne_nil (n : Nat) : natToChars n ≠ [] := by
  rw [natToChars]
  simpa using decDigits_ne_nil n

theorem natToChars_head_mem_NWZ {n : Nat} (h0 : n ≠ 0) :
    ∀ c, (natToChars n).head? = some c → c ∈ NUMBERS_WITHOUT_ZERO := by
  intro c hc
  rw [natToChars, List.head?_map] at hc
  cases hh : (decDigits n).head? with
  | none => rw [hh] at hc; simp at hc
  | some d =>
    rw [hh] at hc
    simp only [Option.map_some'] at hc
    have hd := decDigits_head_ne_zero h0 d hh
    have hdm : d ∈ decDigits n := List.mem_of_mem_head? hh
    have := decDigits_lt_ten n d hdm
    cases hc
    exact digitToChar_mem_NWZ hd this

theorem natToChars_charsToNat {s : List Char} (hne : s ≠ [])
    (hmem : ∀ c ∈ s, c ∈ NUMBERS) (hhead : ∀ c, s.head? = some c → c ≠ '0') :
    natToChars (charsToNat s) = s := by
  have hmap : s = (s.map charToDigit).map digitToChar := by
    rw [List.map_map]
    have : ∀ (l : List Char), (∀ c ∈ l, c ∈ NUMBERS) →
        l.map (digitToChar ∘ charToDigit) = l := by
      intro l
      induction l with
      | nil => intro _; rfl
      | cons c l2 ih =>
        intro hl
        simp only [List.map_cons, Function.comp_apply]
        rw [(mem_NUMBERS_props c (hl c (List.mem_cons_self c l2))).1,
          ih (fun x hx => hl x (List.mem_cons_of_mem c hx))]
    exact (this s hmem).symm
  rw [natToChars]
  conv_lhs => rw [hmap]
  rw [← hmap]
  have hcn : charsToNat s = ofDigitsMSB (s.map charToDigit) := by
    conv_lhs => rw [hmap]
    exact charsToNat_map (by
      intro d hd
      rcases List.mem_map.mp hd with ⟨c, hc, rfl⟩
      exact (mem_NUMBERS_props c (hmem c hc)).2)
  rw [hcn, decDigits_of_value (by simpa using hne)]
  · exact hmap.symm
  · intro d hd
    rcases List.mem_map.mp hd with ⟨c, hc, rfl⟩
    exact (mem_NUMBERS_props c (hmem c hc)).2
  · intro d hd
    rw [List.head?_map] at hd
    cases hh : s.head? with
    | none => rw [hh] at hd; simp at hd
    | some c =>
      rw [hh] at hd
      simp only [Option.map_some'] at hd
      have hc0 := hhead c hh
      have hcm : c ∈ s := List.mem_of_mem_head? hh
      cases hd
      intro hzero
      apply hc0
      have := (mem_NUMBERS_props c (hmem c hcm)).1
      rw [← this, hzero]
      rfl

/-- Every character the translation loop emits on an all-alphabet text is in
the alphabet. -/
theorem translateTextGo_mem_all (key alphabet : List Char) (encrypt : Bool)
    (text : List Char) :
    ∀ ki : Nat, (∀ c ∈ text, c ∈ alphabet) →
      ∀ c ∈ translateTextGo key alphabet encrypt ki text, c ∈ alphabet := by
  induction text with
  | nil => intro ki _ c hc; simp [translateTextGo] at hc
  | cons c rest ih =>
    intro ki hall c2 hc2
    have hc : c ∈ alphabet := hall c (List.mem_cons_self c rest)
    have hL : 0 < alphabet.length := List.length_pos.mpr (List.ne_nil_of_mem hc)
    have hLpos : (0 : Int) < (alphabet.length : Int) := by exact_mod_cast hL
    rw [translateTextGo_cons_mem key alphabet encrypt ki c rest
      (strFind_ne_neg_one_of_mem hc)] at hc2
    rcases List.mem_cons.mp hc2 with h | h
    · subst h
      have h20 : 0 ≤ (strFind alphabet c +
          (if encrypt then 1 else -1) * strFind alphabet (key.getD ki ' '))
            % (alphabet.length : Int) := Int.emod_nonneg _ (by omega)
      have h2L : (strFind alphabet c +
          (if encrypt then 1 else -1) * strFind alphabet (key.getD ki ' '))
            % (alphabet.length : Int) < (alphabet.length : Int) :=
        Int.emod_lt_of_pos _ hLpos
      exact getD_mem_of_lt (by omega)
    · exact ih (advanceKey key.length ki) (fun x hx => hall x (List.mem_cons_of_mem c hx))
        c2 h

theorem translateText_roundtrip (key alphabet : List Char) (ha : alphabet.Nodup)
    (text : List Char) :
    translateText key (translateText key text true alphabet) false alphabet = text :=
  translateTextGo_roundtrip key alphabet ha text 0

theorem translateText_length (key alphabet text : List Char) (encrypt : Bool) :
    (translateText key text encrypt alphabet).length = text.length :=
  translateTextGo_length key alphabet encrypt text 0

theorem translateText_singleton_mem (key alphabet : List Char) (encrypt : Bool)
    {c : Char} (hc : c ∈ alphabet) :
    ∃ d, translateText key [c] encrypt alphabet = [d] ∧ d ∈ alphabet := by
  have hL : 0 < alphabet.length := List.length_pos.mpr (List.ne_nil_of_mem hc)
  have hLpos : (0 : Int) < (alphabet.length : Int) := by exact_mod_cast hL
  rw [translateText, translateTextGo_cons_mem key alphabet encrypt 0 c []
    (strFind_ne_neg_one_of_mem hc)]
  refine ⟨_, rfl, ?_⟩
  have h20 : 0 ≤ (strFind alphabet c +
      (if encrypt then 1 else -1) * strFind alphabet (key.getD 0 ' '))
        % (alphabet.length : Int) := Int.emod_nonneg _ (by omega)
  have h2L : (strFind alphabet c +
      (if encrypt then 1 else -1) * strFind alphabet (key.getD 0 ' '))
        % (alphabet.length : Int) < (alphabet.length : Int) :=
    Int.emod_lt_of_pos _ hLpos
  exact getD_mem_of_lt (by omega)

theorem translateText_singleton_not_mem (key alphabet : List Char) (encrypt : Bool)
    {c : Char} (hc : c ∉ alphabet) :
    translateText key [c] encrypt alphabet = [c] := by
  rw [translateText, translateTextGo_cons_not_mem key alphabet encrypt 0 c [] hc]
  rfl

theorem not_mem_of_all_NUMBERS {s : List Char} {c : Char}
    (hmem : ∀ x ∈ s, x ∈ NUMBERS) (hc : c ∉ NUMBERS) : c ∉ s :=
  fun h => hc (hmem c h)

theorem NUMBERS_nodup : NUMBERS.Nodup := by decide

theorem NWZ_nodup : NUMBERS_WITHOUT_ZERO.Nodup := by decide

/-- Round trip of `translate_number` on integers: translating with the same
key in the decrypt direction returns the original integer. -/
theorem translateNumberInt_roundtrip (key : List Char) (n : Int) :
    translateNumberInt key (translateNumberInt key n true) false = n := by
  rcases lt_trichotomy n 0 with hneg | hzero | hpos
  · -- negative integers
    have hna : n.natAbs ≠ 0 := by omega
    have hs : intToChars n = '-' :: natToChars n.natAbs := by
      rw [intToChars, if_pos hneg]
    cases hbody : natToChars n.natAbs with
    | nil => exact absurd hbody (natToChars_ne_nil _)
    | cons c0 cs =>
      have hc0nwz : c0 ∈ NUMBERS_WITHOUT_ZERO :=
        natToChars_head_mem_NWZ hna c0 (by rw [hbody]; rfl)
      have hc0num : c0 ∈ NUMBERS := (mem_NWZ_props c0 hc0nwz).1
      have hcsnum : ∀ c ∈ cs, c ∈ NUMBERS := by
        intro c hc
        exact natToChars_mem n.natAbs c (by rw [hbody]; exact List.mem_cons_of_mem c0 hc)
      have hminus : ('-' : Char) ∈ intToChars n := by rw [hs]; exact List.mem_cons_self _ _
      have hnodotBody : ('.' : Char) ∉ (c0 :: cs : List Char) := by
        apply not_mem_of_all_NUMBERS _ (by decide)
        intro x hx
        rcases List.mem_cons.mp hx with h | h
        · exact h ▸ hc0num
        · exact hcsnum x h
      have hnodot : ('.' : Char) ∉ intToChars n := by
        rw [hs, hbody]
        intro h
        rcases List.mem_cons.mp h with h | h
        · exact absurd h (by decide)
        · exact hnodotBody h
      obtain ⟨e0, he0, he0mem⟩ :=
        translateText_singleton_mem key NUMBERS_WITHOUT_ZERO true hc0nwz
      have he0num : e0 ∈ NUMBERS := (mem_NWZ_props e0 he0mem).1
      have hesnum : ∀ c ∈ translateText key cs true NUMBERS, c ∈ NUMBERS :=
        translateTextGo_mem_all key NUMBERS true cs 0 hcsnum
      -- the encrypted string
      have henc : translateNumberChars key (intToChars n) true =
          '-' :: e0 :: translateText key cs true NUMBERS := by
        rw [translateNumberChars, if_pos hminus, if_neg hnodot, hs, hbody]
        have ht : ('-' :: c0 :: cs : List Char).take 1 = ['-'] := rfl
        have hg : ('-' :: c0 :: cs : List Char).getD 1 ' ' = c0 := rfl
        have hd : ('-' :: c0 :: cs : List Char).drop 2 = cs := rfl
        rw [ht, hg, hd, he0]
        rfl
      have hencBodyNum : ∀ c ∈ e0 :: translateText key cs true NUMBERS, c ∈ NUMBERS := by
        intro c hc
        rcases List.mem_cons.mp hc with h | h
        · exact h ▸ he0num
        · exact hesnum c h
      -- the intermediate integer value
      have hm0 : charsToNat (e0 :: translateText key cs true NUMBERS) ≠ 0 := by
        intro h
        have := natToChars_charsToNat (s := e0 :: translateText key cs true NUMBERS)
          (by simp) hencBodyNum (by
            intro c hc
            cases hc
            intro h0
            rw [h0] at he0mem
            exact absurd he0mem (by decide))
        rw [h] at this
        have : (['0'] : List Char) = e0 :: translateText key cs true NUMBERS := by
          simpa [natToChars, decDigits] using this
        have he00 : e0 = '0' := by
          have := congrArg (fun l => l.head? ) this
          simpa using this.symm
        rw [he00] at he0mem
        exact absurd he0mem (by decide)
      have hmval : translateNumberInt key n true =
          -(charsToNat (e0 :: translateText key cs true NUMBERS) : Int) := by
        rw [translateNumberInt, henc, charsToInt]
        rfl
      -- decrypting
      have hneg2 : translateNumberInt key n true < 0 := by
        rw [hmval]
        have : 0 < charsToNat (e0 :: translateText key cs true NUMBERS) :=
          Nat.pos_of_ne_zero hm0
        omega
      rw [translateNumberInt, intToChars, if_pos hneg2]
      have habs : (translateNumberInt key n true).natAbs =
          charsToNat (e0 :: translateText key cs true NUMBERS) := by
        rw [hmval]; omega
      rw [habs]
      have hback : natToChars (charsToNat (e0 :: translateText key cs true NUMBERS)) =
          e0 :: translateText key cs true NUMBERS := by
        apply natToChars_charsToNat (by simp) hencBodyNum
        intro c hc
        cases hc
        intro h0
        rw [h0] at he0mem
        exact absurd he0mem (by decide)
      rw [hback]
      have hminus2 : ('-' : Char) ∈
          ('-' :: (e0 :: translateText key cs true NUMBERS) : List Char) :=
        List.mem_cons_self _ _
      have hnodot2 : ('.' : Char) ∉
          ('-' :: (e0 :: translateText key cs true NUMBERS) : List Char) := by
        intro h
        rcases List.mem_cons.mp h with h | h
        · exact absurd h (by decide)
        · exact absurd (hencBodyNum _ h) (by decide)
      rw [translateNumberChars, if_pos hminus2, if_neg hnodot2]
      have ht2 : ('-' :: e0 :: translateText key cs true NUMBERS : List Char).take 1 =
          ['-'] := rfl
      have hg2 : ('-' :: e0 :: translateText key cs true NUMBERS : List Char).getD 1 ' ' =
          e0 := rfl
      have hd2 : ('-' :: e0 :: translateText key cs true NUMBERS : List Char).drop 2 =
          translateText key cs true NUMBERS := rfl
      rw [ht2, hg2, hd2]
      have hseg1 : translateText key [e0] false NUMBERS_WITHOUT_ZERO = [c0] := by
        rw [← he0]
        exact translateText_roundtrip key NUMBERS_WITHOUT_ZERO NWZ_nodup [c0]
      have hseg2 : translateText key (translateText key cs true NUMBERS) false NUMBERS = cs :=
        translateText_roundtrip key NUMBERS NUMBERS_nodup cs
      rw [hseg1, hseg2]
      have hflat : (['-'] ++ [c0] ++ cs : List Char) = '-' :: c0 :: cs := by simp
      rw [hflat, charsToInt,
        if_pos (by simp : ('-' :: c0 :: cs : List Char).head? = some '-')]
      have hdrop : ('-' :: c0 :: cs : List Char).drop 1 = c0 :: cs := rfl
      rw [hdrop]
      have hval2 : charsToNat (c0 :: cs) = n.natAbs := by
        have h3 := charsToNat_natToChars n.natAbs
        rw [hbody] at h3
        exact h3
      rw [hval2]
      omega
  · -- zero
    subst hzero
    have hs : intToChars 0 = ['0'] := by decide
    have hzeroChars : ∀ b : Bool, translateNumberChars key ['0'] b = ['0'] := by
      intro b
      rw [translateNumberChars, if_neg (by decide), if_neg (by decide)]
      have h1 : translateText key ['0'] b NUMBERS_WITHOUT_ZERO = ['0'] :=
        translateText_singleton_not_mem key NUMBERS_WITHOUT_ZERO b (by decide)
      have ht : (['0'] : List Char).take 1 = ['0'] := rfl
      have hd : (['0'] : List Char).drop 1 = [] := rfl
      rw [ht, hd, h1]
      rfl
    have hval : translateNumberInt key 0 true = 0 := by
      rw [translateNumberInt, hs, hzeroChars]
      decide
    rw [hval, translateNumberInt, hs, hzeroChars]
    decide
  · -- positive integers
    have hn0 : n.toNat ≠ 0 := by omega
    have hs : intToChars n = natToChars n.toNat := by
      rw [intToChars, if_neg (by omega)]
    cases hbody : natToChars n.toNat with
    | nil => exact absurd hbody (natToChars_ne_nil _)
    | cons c0 cs =>
      have hc0nwz : c0 ∈ NUMBERS_WITHOUT_ZERO :=
        natToChars_head_mem_NWZ hn0 c0 (by rw [hbody]; rfl)
      have hc0num : c0 ∈ NUMBERS := (mem_NWZ_props c0 hc0nwz).1
      have hcsnum : ∀ c ∈ cs, c ∈ NUMBERS := by
        intro c hc
        exact natToChars_mem n.toNat c (by rw [hbody]; exact List.mem_cons_of_mem c0 hc)
      have hallnum : ∀ c ∈ (c0 :: cs : List Char), c ∈ NUMBERS := by
        intro c hc
        rcases List.mem_cons.mp hc with h | h
        · exact h ▸ hc0num
        · exact hcsnum c h
      have hnominus : ('-' : Char) ∉ intToChars n := by
        rw [hs, hbody]
        exact not_mem_of_all_NUMBERS hallnum (by decide)
      have hnodot : ('.' : Char) ∉ intToChars n := by
        rw [hs, hbody]
        exact not_mem_of_all_NUMBERS hallnum (by decide)
      obtain ⟨e0, he0, he0mem⟩ :=
        translateText_singleton_mem key NUMBERS_WITHOUT_ZERO true hc0nwz
      have he0num : e0 ∈ NUMBERS := (mem_NWZ_props e0 he0mem).1
      have hesnum : ∀ c ∈ translateText key cs true NUMBERS, c ∈ NUMBERS :=
        translateTextGo_mem_all key NUMBERS true cs 0 hcsnum
      have henc : translateNumberChars key (intToChars n) true =
          e0 :: translateText key cs true NUMBERS := by
        rw [translateNumberChars, if_neg hnominus, if_neg hnodot, hs, hbody]
        have ht : (c0 :: cs : List Char).take 1 = [c0] := rfl
        have hd : (c0 :: cs : List Char).drop 1 = cs := rfl
        rw [ht, hd, he0]
        rfl
      have hencNum : ∀ c ∈ e0 :: translateText key cs true NUMBERS, c ∈ NUMBERS := by
        intro c hc
        rcases List.mem_cons.mp hc with h | h
        · exact h ▸ he0num
        · exact hesnum c h
      have hheadne : ∀ c, (e0 :: translateText key cs true NUMBERS : List Char).head? =
          some c → c ≠ '0' := by
        intro c hc
        cases hc
        intro h0
        rw [h0] at he0mem
        exact absurd he0mem (by decide)
      have hmval : translateNumberInt key n true =
          (charsToNat (e0 :: translateText key cs true NUMBERS) : Int) := by
        rw [translateNumberInt, henc, charsToInt, if_neg]
        intro h
        have : e0 = '-' := by simpa using h
        rw [this] at he0mem
        exact absurd he0mem (by decide)
      have hnonneg : ¬ translateNumberInt key n true < 0 := by
        rw [hmval]; omega
      rw [translateNumberInt, intToChars, if_neg hnonneg]
      have habs : (translateNumberInt key n true).toNat =
          charsToNat (e0 :: translateText key cs true NUMBERS) := by
        rw [hmval]; omega
      rw [habs]
      have hback : natToChars (charsToNat (e0 :: translateText key cs true NUMBERS)) =
          e0 :: translateText key cs true NUMBERS :=
        natToChars_charsToNat (by simp) hencNum hheadne
      rw [hback]
      have hnominus2 : ('-' : Char) ∉ (e0 :: translateText key cs true NUMBERS : List Char) :=
        not_mem_of_all_NUMBERS hencNum (by decide)
      have hnodot2 : ('.' : Char) ∉ (e0 :: translateText key cs true NUMBERS : List Char) :=
        not_mem_of_all_NUMBERS hencNum (by decide)
      rw [translateNumberChars, if_neg hnominus2, if_neg hnodot2]
      have ht2 : (e0 :: translateText key cs true NUMBERS : List Char).take 1 = [e0] := rfl
      have hd2 : (e0 :: translateText key cs true NUMBERS : List Char).drop 1 =
          translateText key cs true NUMBERS := rfl
      rw [ht2, hd2]
      have hseg1 : translateText key [e0] false NUMBERS_WITHOUT_ZERO = [c0] := by
        rw [← he0]
        exact translateText_roundtrip key NUMBERS_WITHOUT_ZERO NWZ_nodup [c0]
      have hseg2 : translateText key (translateText key cs true NUMBERS) false NUMBERS = cs :=
        translateText_roundtrip key NUMBERS NUMBERS_nodup cs
      rw [hseg1, hseg2, charsToInt, if_neg]
      · have : charsToNat (c0 :: cs) = n.toNat := by
          have := charsToNat_natToChars n.toNat
          rw [hbody] at this
          simpa using this
        rw [List.singleton_append, this]
        omega
      · intro h
        have : c0 = '-' := by simpa using h
        rw [this] at hc0num
        exact absurd hc0num (by decide)

theorem sub_localFields (l ol : List String) (r orel : List (String × Fields)) :
    (Fields.sub (.mk l r) (.mk ol orel)).localFields = l.filter (fun f => f ∉ ol) := by
  rw [Fields.sub]
  rfl

theorem sub_relatedFields (l ol : List String) (r orel : List (String × Fields)) :
    (Fields.sub (.mk l r) (.mk ol orel)).relatedFields =
      (r.map (fun q => match lookupRelated orel q.1 with
        | some of => (q.1, Fields.sub q.2 of)
        | none => q)).filter (fun p => p.2.len ≠ 0) := by
  rw [Fields.sub]
  simp only [Fields.relatedFields]
  congr 1
  exact List.attach_map_coe r (fun q => match lookupRelated orel q.1 with
    | some of => (q.1, Fields.sub q.2 of)
    | none => q)

theorem lookupRelated_eq_none_of_not_mem {l : List (String × Fields)} {n : String}
    (h : n ∉ l.map Prod.fst) : lookupRelated l n = none := by
  induction l with
  | nil => rfl
  | cons p rest ih =>
    rw [lookupRelated.eq_def]
    rcases p with ⟨m, f⟩
    simp only
    rw [if_neg, ih]
    · intro hm
      exact h (by simp [hm])
    · intro hm
      subst hm
      exact h (by simp)

theorem subEntry_fst (orel : List (String × Fields)) (q : String × Fields) :
    (match lookupRelated orel q.1 with
      | some of => (q.1, Fields.sub q.2 of)
      | none => q).1 = q.1 := by
  cases lookupRelated orel q.1 <;> rfl

/-- Lookup characterization of the related part of a subtraction: a relation
of `A` survives exactly when its (recursively subtracted, when `B` has the
same relation) tree is non-empty, and is dropped otherwise; relations absent
from `A` stay absent. -/
theorem sub_lookup (oloc : List String) (orel : List (String × Fields)) :
    ∀ (l : List String) (r : List (String × Fields)), (r.map Prod.fst).Nodup →
      ∀ n, lookupRelated ((Fields.sub (.mk l r) (.mk oloc orel)).relatedFields) n =
        match lookupRelated r n with
        | none => none
        | some s =>
          match lookupRelated orel n with
          | some t => if (s.sub t).len = 0 then none else some (s.sub t)
          | none => if s.len = 0 then none else some s := by
  intro l r hnodup n
  rw [sub_relatedFields]
  revert hnodup
  induction r with
  | nil => intro _; rfl
  | cons q rest ih =>
    intro hnodup
    rcases q with ⟨m, f⟩
    simp only [List.map_cons, List.nodup_cons] at hnodup
    have hmnotin : m ∉ rest.map Prod.fst := hnodup.1
    have hnodup' : (rest.map Prod.fst).Nodup := hnodup.2
    have hkeys : ∀ x, x ∈ ((rest.map (fun q => match lookupRelated orel q.1 with
        | some of => (q.1, Fields.sub q.2 of)
        | none => q)).filter (fun p => p.2.len ≠ 0)).map Prod.fst →
        x ∈ rest.map Prod.fst := by
      intro x hx
      rcases List.mem_map.mp hx with ⟨p2, hp2, rfl⟩
      have hp3 := List.mem_of_mem_filter hp2
      rcases List.mem_map.mp hp3 with ⟨q2, hq2, rfl⟩
      rw [subEntry_fst orel q2]
      exact List.mem_map.mpr ⟨q2, hq2, rfl⟩
    by_cases hname : m = n
    · subst hname
      simp only [List.map_cons]
      cases hlk : lookupRelated orel m with
      | some t =>
        have hg : (match (some t : Option Fields) with
            | some of => (m, Fields.sub f of)
            | none => (m, f)) = (m, Fields.sub f t) := rfl
        rw [hg]
        by_cases hlen : (f.sub t).len = 0
        · rw [List.filter_cons_of_neg (by simpa using hlen)]
          rw [lookupRelated_eq_none_of_not_mem (fun hx => hmnotin (hkeys m hx))]
          simp [lookupRelated, hlen]
        · rw [List.filter_cons_of_pos (by simpa using hlen)]
          simp [lookupRelated, hlen]
      | none =>
        have hg : (match (none : Option Fields) with
            | some of => (m, Fields.sub f of)
            | none => (m, f)) = (m, f) := rfl
        rw [hg]
        by_cases hlen : f.len = 0
        · rw [List.filter_cons_of_neg (by simpa using hlen)]
          rw [lookupRelated_eq_none_of_not_mem (fun hx => hmnotin (hkeys m hx))]
          simp [lookupRelated, hlen]
        · rw [List.filter_cons_of_pos (by simpa using hlen)]
          simp [lookupRelated, hlen]
    · simp only [List.map_cons]
      have hrhs : lookupRelated ((m, f) :: rest) n = lookupRelated rest n := by
        rw [lookupRelated, if_neg hname]
      rw [hrhs]
      cases hlk : lookupRelated orel m with
      | some t =>
        have hg : (match (some t : Option Fields) with
            | some of => (m, Fields.sub f of)
            | none => (m, f)) = (m, Fields.sub f t) := rfl
        rw [hg]
        by_cases hlen : (f.sub t).len = 0
        · rw [List.filter_cons_of_neg (by simpa using hlen)]
          exact ih hnodup'
        · rw [List.filter_cons_of_pos (by simpa using hlen)]
          rw [lookupRelated, if_neg hname]
          exact ih hnodup'
      | none =>
        have hg : (match (none : Option Fields) with
            | some of => (m, Fields.sub f of)
            | none => (m, f)) = (m, f) := rfl
        rw [hg]
        by_cases hlen : f.len = 0
        · rw [List.filter_cons_of_neg (by simpa using hlen)]
          exact ih hnodup'
        · rw [List.filter_cons_of_pos (by simpa using hlen)]
          rw [lookupRelated, if_neg hname]
          exact ih hnodup'

/-- Unfolding of `getFilteredFields` on a tuple matrix, with the attached
membership proofs eliminated. -/
theorem getFilteredFields_mk (m : MSpec) (es : List FMElem) (others : List FM) :
    getFilteredFields m (.mk es) others =
      FM.mk ((filterLocalFieldsFM (getLocalFieldsFM m (.mk es))
          (others.map (fun o => getLocalFieldsFM m o))).map FMElem.fld ++
        ((dictOfPairs (relPairsFM (.mk (es.map (filterElemFM m others))))).filter
          (fun p => 0 < fmLen p.2)).map (fun p => FMElem.rel p.1 p.2)) := by
  have hmap : es.attach.map (fun e =>
      match e with
      | ⟨.fld s, _⟩ => FMElem.fld s
      | ⟨.rel n s, hmem⟩ =>
        FMElem.rel n
          (if sharedRelName others n then
            getFilteredFields (m.relatedModel n) s (othersActualFM others n)
          else s)) = es.map (filterElemFM m others) := by
    rw [← List.attach_map_coe es (filterElemFM m others)]
    congr 1
    funext e
    rcases e with ⟨x, h⟩
    cases x <;> rfl
  rw [getFilteredFields, hmap]

theorem relPairsFM_mk_append (A : List String) (B : List (String × FM)) :
    relPairsFM (.mk (A.map FMElem.fld ++ B.map (fun p => FMElem.rel p.1 p.2))) = B := by
  rw [relPairsFM]
  rw [List.filterMap_append, List.filterMap_map, List.filterMap_map]
  have h1 : ∀ l : List String,
      l.filterMap ((fun e => match e with
        | FMElem.fld _ => none
        | FMElem.rel n s => some (n, s)) ∘ FMElem.fld) = [] := by
    intro l
    induction l with
    | nil => rfl
    | cons a l2 ih => simp [List.filterMap_cons, ih, Function.comp]
  have h2 : ∀ l : List (String × FM),
      l.filterMap ((fun e => match e with
        | FMElem.fld _ => none
        | FMElem.rel n s => some (n, s)) ∘ (fun p => FMElem.rel p.1 p.2)) = l := by
    intro l
    induction l with
    | nil => rfl
    | cons a l2 ih => simp [List.filterMap_cons, ih, Function.comp]
  rw [h1, h2, List.nil_append]

theorem getLocalFieldsFM_mk_append (m : MSpec) (A : List String)
    (B : List (String × FM)) (hA : "__ALL__" ∉ A) :
    getLocalFieldsFM m (.mk (A.map FMElem.fld ++ B.map (fun p => FMElem.rel p.1 p.2))) =
      A := by
  rw [getLocalFieldsFM]
  have hloc : (A.map FMElem.fld ++ B.map (fun p => FMElem.rel p.1 p.2)).filterMap
      (fun e => match e with
        | FMElem.fld s => some s
        | FMElem.rel _ _ => none) = A := by
    rw [List.filterMap_append, List.filterMap_map, List.filterMap_map]
    have h1 : ∀ l : List String,
        l.filterMap ((fun e => match e with
          | FMElem.fld s => some s
          | FMElem.rel _ _ => none) ∘ FMElem.fld) = l := by
      intro l
      induction l with
      | nil => rfl
      | cons a l2 ih => simp [List.filterMap_cons, ih, Function.comp]
    have h2 : ∀ l : List (String × FM),
        l.filterMap ((fun e => match e with
          | FMElem.fld s => some s
          | FMElem.rel _ _ => none) ∘ (fun p => FMElem.rel p.1 p.2)) = [] := by
      intro l
      induction l with
      | nil => rfl
      | cons a l2 ih => simp [List.filterMap_cons, ih, Function.comp]
    rw [h1, h2, List.append_nil]
  simp only [hloc]
  rw [if_neg hA]

theorem relPairsFM_map_filterElem (m : MSpec) (others : List FM) (es : List FMElem) :
    relPairsFM (.mk (es.map (filterElemFM m others))) =
      (relPairsFM (.mk es)).map (fun p => (p.1, filterRelFM m others p.1 p.2)) := by
  induction es with
  | nil => rfl
  | cons e rest ih =>
    cases e with
    | fld s => simpa [relPairsFM, filterElemFM, List.filterMap_cons] using ih
    | rel n s => simpa [relPairsFM, filterElemFM, List.filterMap_cons] using ih

theorem foldl_dictUpsert (ps : List (String × FM)) :
    ∀ acc : List (String × FM),
      (∀ k ∈ ps.map Prod.fst, k ∉ acc.map Prod.fst) → (ps.map Prod.fst).Nodup →
      ps.foldl (fun acc p => dictUpsert acc p.1 p.2) acc = acc ++ ps := by
  induction ps with
  | nil => intro acc _ _; simp
  | cons p rest ih =>
    intro acc hdisj hnodup
    rcases p with ⟨n, v⟩
    simp only [List.map_cons, List.nodup_cons] at hnodup
    have hn : n ∉ acc.map Prod.fst := hdisj n (by simp)
    simp only [List.foldl_cons]
    rw [show dictUpsert acc n v = acc ++ [(n, v)] from by rw [dictUpsert, if_neg hn]]
    rw [ih (acc ++ [(n, v)]) ?hd hnodup.2]
    · simp
    · intro k hk hka
      rw [List.map_append] at hka
      rcases List.mem_append.mp hka with h1 | h2
      · exact hdisj k (by simp [hk]) h1
      · have hkn : k = n := by simpa using h2
        rw [hkn] at hk
        exact hnodup.1 hk

theorem dictOfPairs_eq_self {ps : List (String × FM)}
    (h : (ps.map Prod.fst).Nodup) : dictOfPairs ps = ps := by
  rw [dictOfPairs, foldl_dictUpsert ps [] (by simp) h, List.nil_append]

theorem lookupLastFM_eq_none_of_not_mem {ps : List (String × FM)} {n : String}
    (h : n ∉ ps.map Prod.fst) : lookupLastFM ps n = none := by
  induction ps with
  | nil => rfl
  | cons p rest ih =>
    rcases p with ⟨m, v⟩
    simp only [List.map_cons, List.mem_cons, not_or] at h
    rw [lookupLastFM, ih h.2]
    show (if m = n then some v else none) = none
    rw [if_neg (Ne.symm h.1)]

/-- Lookup characterization of the filtered relation dictionary: a relation
survives exactly when its transformed matrix is non-empty. -/
theorem filteredRel_lookup (m : MSpec) (others : List FM) :
    ∀ (ps : List (String × FM)), (ps.map Prod.fst).Nodup → ∀ n,
      lookupLastFM ((ps.map (fun p => (p.1, filterRelFM m others p.1 p.2))).filter
          (fun p => 0 < fmLen p.2)) n =
        match lookupLastFM ps n with
        | none => none
        | some s =>
          if 0 < fmLen (filterRelFM m others n s) then
            some (filterRelFM m others n s)
          else none := by
  intro ps
  induction ps with
  | nil => intro _ n; rfl
  | cons p rest ih =>
    intro hnodup n
    rcases p with ⟨k, v⟩
    simp only [List.map_cons, List.nodup_cons] at hnodup
    have hkeysSub : ∀ x, x ∈ ((rest.map (fun p => (p.1, filterRelFM m others p.1 p.2))).filter
        (fun p => 0 < fmLen p.2)).map Prod.fst → x ∈ rest.map Prod.fst := by
      intro x hx
      rcases List.mem_map.mp hx with ⟨p2, hp2, rfl⟩
      have hp3 := List.mem_of_mem_filter hp2
      rcases List.mem_map.mp hp3 with ⟨q2, hq2, rfl⟩
      exact List.mem_map.mpr ⟨q2, hq2, rfl⟩
    by_cases hname : k = n
    · subst hname
      have hrest : lookupLastFM rest k = none :=
        lookupLastFM_eq_none_of_not_mem hnodup.1
      have hself : lookupLastFM ((k, v) :: rest) k = some v := by
        rw [lookupLastFM, hrest]
        simp
      simp only [List.map_cons]
      by_cases hlen : 0 < fmLen (filterRelFM m others k v)
      · rw [List.filter_cons_of_pos (by simpa using hlen)]
        have hLHS : lookupLastFM ((k, filterRelFM m others k v) ::
            (rest.map (fun p => (p.1, filterRelFM m others p.1 p.2))).filter
              (fun p => 0 < fmLen p.2)) k = some (filterRelFM m others k v) := by
          rw [lookupLastFM,
            lookupLastFM_eq_none_of_not_mem (fun hx => hnodup.1 (hkeysSub k hx))]
          simp
        rw [hLHS, hself]
        simp [hlen]
      · rw [List.filter_cons_of_neg (by simpa using hlen)]
        rw [lookupLastFM_eq_none_of_not_mem (fun hx => hnodup.1 (hkeysSub k hx)), hself]
        simp [hlen]
    · simp only [List.map_cons]
      have hstep : lookupLastFM ((k, v) :: rest) n = lookupLastFM rest n := by
        rw [lookupLastFM]
        cases lookupLastFM rest n with
        | none => simp [hname]
        | some r => rfl
      rw [hstep]
      by_cases hlen : 0 < fmLen (filterRelFM m others k v)
      · rw [List.filter_cons_of_pos (by simpa using hlen)]
        rw [lookupLastFM, ih hnodup.2 n]
        cases lookupLastFM rest n with
        | none => simp [hname]
        | some s =>
          by_cases h2 : 0 < fmLen (filterRelFM m others n s) <;> simp [h2, hname]
      · rw [List.filter_cons_of_neg (by simpa using hlen)]
        exact ih hnodup.2 n

theorem getFilteredFields_all (m : MSpec) (others : List FM) :
    getFilteredFields m .all others =
      FM.mk ((filterLocalFieldsFM m.keys
        (others.map (fun o => getLocalFieldsFM m o))).map FMElem.fld) := by
  rw [getFilteredFields]

theorem all_not_mem_getLocalFieldsFM {m : MSpec} (hkeys : "__ALL__" ∉ m.keys)
    (fm : FM) : "__ALL__" ∉ getLocalFieldsFM m fm := by
  cases fm with
  | all => exact hkeys
  | mk es =>
    rw [getLocalFieldsFM]
    by_cases hin : "__ALL__" ∈ es.filterMap (fun e =>
        match e with
        | FMElem.fld s => some s
        | FMElem.rel _ _ => none)
    · rw [if_pos hin]; exact hkeys
    · rw [if_neg hin]; exact hin

/-- Local part of `get_filtered_fields`: exactly the purpose's own local
fields with every other purpose's local fields removed. -/
theorem getFilteredFields_local (m : MSpec) (fm : FM) (others : List FM)
    (hkeys : "__ALL__" ∉ m.keys) :
    getLocalFieldsFM m (getFilteredFields m fm others) =
      filterLocalFieldsFM (getLocalFieldsFM m fm)
        (others.map (fun o => getLocalFieldsFM m o)) := by
  have hsub : ∀ (loc : List String) (os : List (List String)),
      "__ALL__" ∉ loc → "__ALL__" ∉ filterLocalFieldsFM loc os := by
    intro loc os hloc hmem
    exact hloc (List.mem_of_mem_filter hmem)
  cases fm with
  | all =>
    rw [getFilteredFields_all]
    have h := getLocalFieldsFM_mk_append m
      (filterLocalFieldsFM m.keys (others.map (fun o => getLocalFieldsFM m o))) []
      (hsub _ _ hkeys)
    simpa using h
  | mk es =>
    rw [getFilteredFields_mk]
    exact getLocalFieldsFM_mk_append m _ _
      (hsub _ _ (all_not_mem_getLocalFieldsFM hkeys (.mk es)))

/-- Relation part of `get_filtered_fields`: every relation of the purpose's
matrix is recursively filtered when some other purpose shares it, kept
intact otherwise, and dropped when the remaining matrix is empty. -/
theorem getFilteredFields_rel (m : MSpec) (es : List FMElem) (others : List FM)
    (hnodup : ((relPairsFM (.mk es)).map Prod.fst).Nodup) (n : String) :
    lookupLastFM (relPairsFM (getFilteredFields m (.mk es) others)) n =
      match lookupLastFM (relPairsFM (.mk es)) n with
      | none => none
      | some s =>
        if 0 < fmLen (filterRelFM m others n s) then some (filterRelFM m others n s)
        else none := by
  rw [getFilteredFields_mk, relPairsFM_mk_append, relPairsFM_map_filterElem]
  have hkeys : ((relPairsFM (.mk es)).map
      (fun p => (p.1, filterRelFM m others p.1 p.2))).map Prod.fst =
      (relPairsFM (.mk es)).map Prod.fst := by
    rw [List.map_map]
    rfl
  rw [dictOfPairs_eq_self (by rw [hkeys]; exact hnodup)]
  exact filteredRel_lookup m others (relPairsFM (.mk es)) hnodup n

theorem applyUpdates_not_mem {V : Type} :
    ∀ (upd : List (String × V)) (values : String → V) (n : String),
      n ∉ upd.map Prod.fst → applyUpdates values upd n = values n := by
  intro upd
  induction upd with
  | nil => intro values n _; rfl
  | cons p rest ih =>
    intro values n hn
    rcases p with ⟨m, w⟩
    simp only [List.map_cons, List.mem_cons, not_or] at hn
    show applyUpdates (Function.update values m w) rest n = values n
    rw [ih (Function.update values m w) n hn.2]
    exact Function.update_noteq hn.1 w values

theorem applyUpdates_mem {V : Type} :
    ∀ (upd : List (String × V)) (values : String → V) (n : String) (v : V),
      (upd.map Prod.fst).Nodup → (n, v) ∈ upd → applyUpdates values upd n = v := by
  intro upd
  induction upd with
  | nil => intro values n v _ h; simp at h
  | cons p rest ih =>
    intro values n v hnodup hmem
    rcases p with ⟨m, w⟩
    simp only [List.map_cons, List.nodup_cons] at hnodup
    rcases List.mem_cons.mp hmem with h | h
    · have h1 : n = m := by simpa using congrArg Prod.fst h
      have h2 : v = w := by simpa using congrArg Prod.snd h
      subst h1
      subst h2
      show applyUpdates (Function.update values n v) rest n = v
      rw [applyUpdates_not_mem rest _ n hnodup.1]
      simp
    · show applyUpdates (Function.update values m w) rest n = v
      exact ih (Function.update values m w) n v hnodup.2 h

theorem getDeanonymizedValueFromValue_of_reversible {V K : Type} [DecidableEq V]
    {a : FieldAnonymizerSpec V K} (h : a.isReversibleFlag = true) (value : V)
    (key : K) :
    getDeanonymizedValueFromValue a value key =
      .ok (if getIsValueEmpty a value then value
        else a.getDecryptedValue value key) := by
  rw [getDeanonymizedValueFromValue, if_pos h]
  by_cases he : getIsValueEmpty a value = true
  · rw [if_pos he, if_pos he]
  · rw [if_neg he, if_neg he]

theorem mapM_deanonymize_ok {V K : Type} [DecidableEq V]
    (a : String → FieldAnonymizerSpec V K) (keyOf : String → K)
    (st : ObjState V) :
    ∀ raw : List String, (∀ nm ∈ raw, (a nm).isReversibleFlag = true) →
      raw.mapM (fun nm =>
        (getDeanonymizedValueFromValue (a nm) (st.values nm)
          (keyOf nm)).map (fun v => (nm, v))) =
      .ok (raw.map (fun nm =>
        (nm, if getIsValueEmpty (a nm) (st.values nm) then st.values nm
          else (a nm).getDecryptedValue (st.values nm) (keyOf nm)))) := by
  intro raw
  induction raw with
  | nil => intro _; rfl
  | cons nm rest ih =>
    intro hall
    rw [List.mapM_cons,
      getDeanonymizedValueFromValue_of_reversible (hall nm (by simp)) _ _]
    rw [ih (fun x hx => hall x (List.mem_cons_of_mem nm hx))]
    rfl

/-- Full evaluation of `update_obj` in the anonymization direction: it never
raises, skips the already-marked fields, writes the encrypted values of the
remaining fields, and marks them. -/
theorem updateObj_anonymize_eq {V K : Type} [DecidableEq V]
    (a : String → FieldAnonymizerSpec V K) (mr : Bool) (k : String → K)
    (sel : List String) (st : ObjState V) :
    updateObj a mr k true sel st =
      .ok (if sel.filter (fun f => !(st.marked f)) = [] then st
        else ⟨applyUpdates st.values ((sel.filter (fun f => !(st.marked f))).map
            (fun nm => (nm, getAnonymizedValueFromValue (a nm) (st.values nm) (k nm)))),
          fun n => st.marked n || (sel.filter (fun f => !(st.marked f))).contains n⟩) := by
  rw [updateObj]
  simp only [not_true_eq_false, false_and, if_false, if_true]
  by_cases hraw : sel.filter (fun f => !(st.marked f)) = []
  · rw [if_pos hraw, if_pos hraw]
  · rw [if_neg hraw, if_neg hraw]

/-- Full evaluation of `update_obj` in the deanonymization direction on a
model whose `Meta.reversible_anonymization` is not disabled: fields whose
anonymizer is irreversible are silently filtered out of the candidates, the
remaining marked fields are decrypted and unmarked, and no exception is
raised. -/
theorem updateObj_deanonymize_eq {V K : Type} [DecidableEq V]
    (a : String → FieldAnonymizerSpec V K) (k : String → K)
    (sel : List String) (st : ObjState V) :
    updateObj a true k false sel st =
      .ok (if sel.filter (fun f => st.marked f && (a f).isReversibleFlag) = [] then st
        else ⟨applyUpdates st.values
            ((sel.filter (fun f => st.marked f && (a f).isReversibleFlag)).map
              (fun nm => (nm, if getIsValueEmpty (a nm) (st.values nm) then st.values nm
                else (a nm).getDecryptedValue (st.values nm) (k nm)))),
          fun n => st.marked n &&
            !((sel.filter (fun f => st.marked f && (a f).isReversibleFlag)).contains n)⟩) := by
  rw [updateObj]
  rw [if_neg (by simp)]
  simp only [Bool.false_eq_true, if_false]
  by_cases hraw : sel.filter (fun f => st.marked f && (a f).isReversibleFlag) = []
  · rw [if_pos hraw, if_pos hraw]
  · rw [if_neg hraw, if_neg hraw]
    have hall : ∀ nm ∈ sel.filter (fun f => st.marked f && (a f).isReversibleFlag),
        (a nm).isReversibleFlag = true := by
      intro nm hnm
      have h2 := (List.mem_filter.mp hnm).2
      simp only [Bool.and_eq_true] at h2
      exact h2.2
    rw [mapM_deanonymize_ok a k st _ hall]

/-- Idempotence: a second anonymization with the same selection is a no-op
because every field of the selection is already marked after the first. -/
theorem anonymizeObjLocal_idem {V K : Type} [DecidableEq V]
    (a : String → FieldAnonymizerSpec V K) (mr : Bool) (k : String → K)
    (sel : List String) (st st₁ : ObjState V)
    (h : anonymizeObjLocal a mr k sel st = .ok st₁) :
    anonymizeObjLocal a mr k sel st₁ = .ok st₁ := by
  rw [anonymizeObjLocal, updateObj_anonymize_eq] at h ⊢
  by_cases hraw : sel.filter (fun f => !(st.marked f)) = []
  · rw [if_pos hraw] at h
    have hst : st = st₁ := by
      have := Except.ok.inj h
      exact this
    subst hst
    rw [if_pos hraw]
  · rw [if_neg hraw] at h
    have hst : st₁ = ⟨applyUpdates st.values
        ((sel.filter (fun f => !(st.marked f))).map
          (fun nm => (nm, getAnonymizedValueFromValue (a nm) (st.values nm) (k nm)))),
        fun n => st.marked n || (sel.filter (fun f => !(st.marked f))).contains n⟩ :=
      (Except.ok.inj h).symm
    have h2 : sel.filter (fun f => !(st₁.marked f)) = [] := by
      rw [List.filter_eq_nil_iff]
      intro f hf
      have hmark : st₁.marked f = true := by
        rw [hst]
        show (st.marked f || (sel.filter (fun f => !(st.marked f))).contains f) = true
        by_cases hm : st.marked f = true
        · rw [hm, Bool.true_or]
        · have hm2 : st.marked f = false := by simpa using hm
          have hmem : f ∈ sel.filter (fun f => !(st.marked f)) :=
            List.mem_filter.mpr ⟨hf, by simp [hm2]⟩
          rw [hm2, Bool.false_or]
          simpa using hmem
      simp [hmark]
    rw [if_pos h2]

theorem JSON_SAFE_CHARS_nodup : JSON_SAFE_CHARS.Nodup := by decide

mutual
theorem anonymizeJsonValue_roundtrip (key : List Char) (v : JsonValue) :
    anonymizeJsonValue key false (anonymizeJsonValue key true v) = v := by
  cases v with
  | null => rfl
  | str s =>
    simp only [anonymizeJsonValue]
    rw [translateText_roundtrip key JSON_SAFE_CHARS JSON_SAFE_CHARS_nodup s]
  | int n =>
    simp only [anonymizeJsonValue]
    rw [translateNumberInt_roundtrip key n]
  | float r => rfl
  | obj ms =>
    simp only [anonymizeJsonValue]
    rw [anonymizeJsonMembers_roundtrip key ms]
  | arr es =>
    simp only [anonymizeJsonValue]
    rw [anonymizeJsonElems_roundtrip key es]
  | bool b =>
    simp only [anonymizeJsonValue]
    by_cases hp : (numerizeKey key % 2 == 0) = true
    · rw [if_pos hp]
      simp only [anonymizeJsonValue]
      rw [if_pos hp, Bool.not_not]
    · rw [if_neg hp]
      simp only [anonymizeJsonValue]
      rw [if_neg hp]
theorem anonymizeJsonMembers_roundtrip (key : List Char) (ms : JsonMembers) :
    anonymizeJsonMembers key false (anonymizeJsonMembers key true ms) = ms := by
  cases ms with
  | nil => rfl
  | cons k v rest =>
    simp only [anonymizeJsonMembers]
    rw [anonymizeJsonValue_roundtrip key v, anonymizeJsonMembers_roundtrip key rest]
theorem anonymizeJsonElems_roundtrip (key : List Char) (es : JsonElems) :
    anonymizeJsonElems key false (anonymizeJsonElems key true es) = es := by
  cases es with
  | nil => rfl
  | cons v rest =>
    simp only [anonymizeJsonElems]
    rw [anonymizeJsonValue_roundtrip key v, anonymizeJsonElems_roundtrip key rest]
end

theorem bruteForceNextLoop_finds (p : Option Nat) :
    ∀ (fuel t s : Nat), s ≤ t → t ≤ 9999999999 → checkAccountFormat p t = true →
      (∀ z, s ≤ z → z < t → checkAccountFormat p z = false) → t - s < fuel →
      bruteForceNextLoop p fuel s = t := by
  intro fuel
  induction fuel with
  | zero => intro t s h1 h2 h3 h4 h5; omega
  | succ f ih =>
    intro t s h1 h2 h3 h4 h5
    rw [bruteForceNextLoop]
    by_cases hcs : checkAccountFormat p s = true
    · rw [if_pos hcs]
      rcases eq_or_lt_of_le h1 with h | h
      · exact h
      · have := h4 s le_rfl h
        rw [this] at hcs
        exact absurd hcs (by simp)
    · rw [if_neg hcs]
      have hst : s < t := by
        rcases eq_or_lt_of_le h1 with h | h
        · subst h; exact absurd h3 hcs
        · exact h
      have hpow : (10 : Nat) ^ 10 = 10000000000 := by norm_num
      have hnoov : ¬ (10 < decimalLen s) := by
        have : decimalLen s ≤ 10 := decimalLen_le (by omega) (by omega)
        omega
      rw [if_neg hnoov]
      exact ih t (s + 1) (by omega) h2 h3 (fun z hz1 hz2 => h4 z (by omega) hz2) (by omega)

theorem bruteForcePrevLoop_finds (p : Option Nat) :
    ∀ (fuel t s : Nat), t ≤ s → checkAccountFormat p t = true →
      (∀ z, t < z → z ≤ s → checkAccountFormat p z = false) → s - t < fuel →
      bruteForcePrevLoop p fuel s = t := by
  intro fuel
  induction fuel with
  | zero => intro t s h1 h3 h4 h5; omega
  | succ f ih =>
    intro t s h1 h3 h4 h5
    rw [bruteForcePrevLoop]
    by_cases hcs : checkAccountFormat p s = true
    · rw [if_pos hcs]
      rcases eq_or_lt_of_le h1 with h | h
      · exact h.symm
      · have := h4 s h le_rfl
        rw [this] at hcs
        exact absurd hcs (by simp)
    · rw [if_neg hcs]
      have hst : t < s := by
        rcases eq_or_lt_of_le h1 with h | h
        · subst h; exact absurd h3 hcs
        · exact h
      have hs0 : ¬ (s = 0) := by omega
      rw [if_neg hs0]
      exact ih t (s - 1) (by omega) h3 (fun z hz1 hz2 => h4 z hz1 (by omega)) (by omega)

theorem check_9999999999 {p : Option Nat} (hpre : preChecksumValid p = true) :
    checkAccountFormat p 9999999999 = true := by
  rw [checkAccountFormat, hpre,
    show numChecksumValid 9999999999 = true from by decide]
  rfl

theorem check_zero {p : Option Nat} (hpre : preChecksumValid p = true) :
    checkAccountFormat p 0 = true := by
  rw [checkAccountFormat, hpre, show numChecksumValid 0 = true from by decide]
  rfl

theorem check_one (p : Option Nat) : checkAccountFormat p 1 = false := by
  rw [checkAccountFormat, show numChecksumValid 1 = false from by decide]
  rfl

theorem preValid_of_check {p : Option Nat} {x : Nat}
    (hx : checkAccountFormat p x = true) : preChecksumValid p = true := by
  rw [checkAccountFormat, Bool.and_eq_true] at hx
  exact hx.2

/-- One forward step lands on a valid ten-digit number and one backward step
returns to the start. -/
theorem bruteForceNextOne_spec (p : Option Nat) (x : Nat)
    (hx : checkAccountFormat p x = true) (hle : x ≤ 9999999999) :
    checkAccountFormat p (bruteForceNextOne p x) = true ∧
      bruteForceNextOne p x ≤ 9999999999 ∧
      bruteForcePrevOne p (bruteForceNextOne p x) = x := by
  have hpre := preValid_of_check hx
  have hpow : (10 : Nat) ^ 10 = 10000000000 := by norm_num
  by_cases hmax : x = 9999999999
  · subst hmax
    have hov : 10 < decimalLen (9999999999 + 1) := by decide
    have hnext : bruteForceNextOne p 9999999999 = 0 := by
      rw [bruteForceNextOne, if_pos hov]
      exact bruteForceNextLoop_finds p _ 0 0 le_rfl (by omega) (check_zero hpre)
        (fun z hz1 hz2 => by omega) (by omega)
    rw [hnext]
    refine ⟨check_zero hpre, by omega, ?_⟩
    rw [bruteForcePrevOne]
    rw [if_pos (by omega : 0 - 1 = 0)]
    exact bruteForcePrevLoop_finds p _ 9999999999 9999999999 le_rfl
      (check_9999999999 hpre) (fun z hz1 hz2 => by omega) (by omega)
  · have hxlt : x < 9999999999 := by omega
    have hex : ∃ z, x < z ∧ checkAccountFormat p z = true :=
      ⟨9999999999, hxlt, check_9999999999 hpre⟩
    set t := Nat.find hex with ht
    have hspec : x < t ∧ checkAccountFormat p t = true := by
      rw [ht]; exact Nat.find_spec hex
    have htle : t ≤ 9999999999 := Nat.find_min' hex ⟨hxlt, check_9999999999 hpre⟩
    have hmin : ∀ z, x < z → z < t → checkAccountFormat p z = false := by
      intro z hz1 hz2
      have := Nat.find_min hex hz2
      simp only [not_and] at this
      have h2 := this hz1
      simpa using h2
    have hnoov : ¬ (10 < decimalLen (x + 1)) := by
      have : decimalLen (x + 1) ≤ 10 := decimalLen_le (by omega) (by omega)
      omega
    have hnext : bruteForceNextOne p x = t := by
      rw [bruteForceNextOne, if_neg hnoov]
      exact bruteForceNextLoop_finds p _ t (x + 1) (by omega) htle hspec.2
        (fun z hz1 hz2 => hmin z (by omega) hz2) (by omega)
    rw [hnext]
    have ht1 : t ≠ 1 := by
      intro h1
      rw [h1] at hspec
      rw [check_one p] at hspec
      exact absurd hspec.2 (by simp)
    have ht2 : 2 ≤ t := by
      have : x < t := hspec.1
      omega
    refine ⟨hspec.2, htle, ?_⟩
    rw [bruteForcePrevOne, if_neg (by omega : ¬ (t - 1 = 0))]
    exact bruteForcePrevLoop_finds p _ x (t - 1) (by omega) hx
      (fun z hz1 hz2 => hmin z hz1 (by omega)) (by omega)

/-- `n` forward steps from a valid account number stay valid, stay within
ten digits, and are undone exactly by `n` backward steps. -/
theorem bruteForceN_spec (p : Option Nat) :
    ∀ (n x : Nat), checkAccountFormat p x = true → x ≤ 9999999999 →
      checkAccountFormat p (bruteForceNextN p n x) = true ∧
        bruteForceNextN p n x ≤ 9999999999 ∧
        bruteForcePrevN p n (bruteForceNextN p n x) = x := by
  intro n
  induction n with
  | zero => intro x hx hle; exact ⟨hx, hle, rfl⟩
  | succ m ih =>
    intro x hx hle
    obtain ⟨h1, h2, h3⟩ := bruteForceNextOne_spec p x hx hle
    obtain ⟨g1, g2, g3⟩ := ih (bruteForceNextOne p x) h1 h2
    refine ⟨g1, g2, ?_⟩
    show bruteForcePrevOne p
      (bruteForcePrevN p m (bruteForceNextN p m (bruteForceNextOne p x))) = x
    rw [g3, h3]

/-- `translate_number` on an integer string, resolved into its segments: the
optional sign is copied, the first digit is translated over
`NUMBERS_WITHOUT_ZERO` and the remaining digits over `NUMBERS`. -/
theorem translateNumberChars_int (key : List Char) (b : Bool) (n : Int) :
    translateNumberChars key (intToChars n) b =
      (if n < 0 then ['-'] else []) ++
        translateText key ((natToChars n.natAbs).take 1) b NUMBERS_WITHOUT_ZERO ++
        translateText key ((natToChars n.natAbs).drop 1) b NUMBERS := by
  cases hbody : natToChars n.natAbs with
  | nil => exact absurd hbody (natToChars_ne_nil _)
  | cons c0 cs =>
    have hmem : ∀ c ∈ (c0 :: cs : List Char), c ∈ NUMBERS := by
      rw [← hbody]
      exact natToChars_mem n.natAbs
    by_cases hneg : n < 0
    · have hs : intToChars n = '-' :: c0 :: cs := by
        rw [intToChars, if_pos hneg, hbody]
      rw [hs, translateNumberChars, if_pos (List.mem_cons_self _ _), if_neg]
      · have ht : ('-' :: c0 :: cs : List Char).take 1 = ['-'] := rfl
        have hg : ('-' :: c0 :: cs : List Char).getD 1 ' ' = c0 := rfl
        have hd : ('-' :: c0 :: cs : List Char).drop 2 = cs := rfl
        rw [ht, hg, hd, if_pos hneg]
        rfl
      · intro hdot
        rcases List.mem_cons.mp hdot with h | h
        · exact absurd h (by decide)
        · exact absurd (hmem _ h) (by decide)
    · have hs : intToChars n = c0 :: cs := by
        rw [intToChars, if_neg hneg, show n.toNat = n.natAbs from by omega, hbody]
      rw [hs, translateNumberChars,
        if_neg (not_mem_of_all_NUMBERS hmem (by decide)),
        if_neg (not_mem_of_all_NUMBERS hmem (by decide)), if_neg hneg]
      rfl

/-- `translate_number` on a well-formed decimal string, resolved into its
segments: the optional sign is copied, the first digit and the final digit
are translated over `NUMBERS_WITHOUT_ZERO`, and everything in between
(including the decimal point, which passes through the `NUMBERS` alphabet
unchanged) over `NUMBERS`. -/
theorem translateNumberChars_decimal (key : List Char) (b : Bool) (neg : Bool)
    (intPart : Nat) (fracChars : List Char) (hfs : ∀ c ∈ fracChars, c ∈ NUMBERS)
    (hfs0 : fracChars ≠ []) :
    translateNumberChars key (decimalChars neg intPart fracChars) b =
      (if neg then ['-'] else []) ++
        translateText key ((natToChars intPart).take 1) b NUMBERS_WITHOUT_ZERO ++
        translateText key ((natToChars intPart).drop 1 ++ '.' :: fracChars.dropLast)
          b NUMBERS ++
        translateText key [fracChars.getD (fracChars.length - 1) ' '] b
          NUMBERS_WITHOUT_ZERO := by
  cases hbody : natToChars intPart with
  | nil => exact absurd hbody (natToChars_ne_nil _)
  | cons c0 cs =>
    have hmem : ∀ c ∈ (c0 :: cs : List Char), c ∈ NUMBERS := by
      rw [← hbody]
      exact natToChars_mem intPart
    have hfrne : ('.' :: fracChars : List Char) ≠ [] := by simp
    have hlast : ∀ (l : List Char), l ≠ [] →
        (l ++ '.' :: fracChars).getD ((l ++ '.' :: fracChars).length - 1) ' ' =
          fracChars.getD (fracChars.length - 1) ' ' := by
      intro l _
      have hfs1 : 1 ≤ fracChars.length := by
        cases fracChars with
        | nil => exact absurd rfl hfs0
        | cons a as => simp
      rw [List.length_append]
      rw [List.getD_append_right]
      · have harith : l.length + (fracChars.length + 1) - 1 - l.length =
            fracChars.length := by omega
        simp only [List.length_cons]
        rw [harith]
        show ((['.'] ++ fracChars : List Char)).getD fracChars.length ' ' = _
        rw [List.getD_append_right ['.'] fracChars ' ' fracChars.length
          (by simpa using hfs1)]
        congr 1
      · simp only [List.length_cons]
        omega
    have hdotlast : ('.' :: fracChars : List Char).dropLast = '.' :: fracChars.dropLast := by
      show ((['.'] ++ fracChars : List Char)).dropLast = ['.'] ++ fracChars.dropLast
      rw [List.dropLast_append_of_ne_nil _ hfs0]
    by_cases hneg : neg = true
    · have hs : decimalChars neg intPart fracChars =
          '-' :: (c0 :: cs ++ '.' :: fracChars) := by
        rw [decimalChars, if_pos hneg, hbody]
        rfl
      rw [hs, translateNumberChars, if_pos (List.mem_cons_self _ _), if_pos]
      · have ht : ('-' :: (c0 :: cs ++ '.' :: fracChars) : List Char).take 1 = ['-'] := rfl
        have hg : ('-' :: (c0 :: cs ++ '.' :: fracChars) : List Char).getD 1 ' ' = c0 := by
          rfl
        have hd : ('-' :: (c0 :: cs ++ '.' :: fracChars) : List Char).drop 2 =
            cs ++ '.' :: fracChars := rfl
        have hlen : ('-' :: (c0 :: cs ++ '.' :: fracChars) : List Char).length - 1 =
            (c0 :: cs ++ '.' :: fracChars : List Char).length - 1 + 1 := by
          simp
        have hlast2 : ('-' :: (c0 :: cs ++ '.' :: fracChars) : List Char).getD
            (('-' :: (c0 :: cs ++ '.' :: fracChars) : List Char).length - 1) ' ' =
            fracChars.getD (fracChars.length - 1) ' ' := by
          rw [hlen, List.getD_cons_succ]
          exact hlast (c0 :: cs) (by simp)
        rw [ht, hg, hd, hlast2, if_pos hneg]
        have hdl : (cs ++ '.' :: fracChars).dropLast = cs ++ '.' :: fracChars.dropLast := by
          rw [List.dropLast_append_of_ne_nil _ hfrne, hdotlast]
        rw [hdl]
        have htake : (c0 :: cs : List Char).take 1 = [c0] := rfl
        have hdrop : (c0 :: cs : List Char).drop 1 = cs := rfl
        rw [htake, hdrop]
      · rw [List.mem_cons]
        right
        rw [List.mem_append]
        right
        exact List.mem_cons_self _ _
    · have hnegf : neg = false := by simpa using hneg
      have hs : decimalChars neg intPart fracChars = c0 :: cs ++ '.' :: fracChars := by
        rw [decimalChars, if_neg (by simp [hnegf]), hbody]
        rfl
      have hnominus : ('-' : Char) ∉ (c0 :: cs ++ '.' :: fracChars : List Char) := by
        intro h
        rcases List.mem_append.mp h with h | h
        · exact absurd (hmem _ h) (by decide)
        · rcases List.mem_cons.mp h with h | h
          · exact absurd h (by decide)
          · exact absurd (hfs _ h) (by decide)
      rw [hs, translateNumberChars, if_neg hnominus, if_pos]
      · have ht : (c0 :: cs ++ '.' :: fracChars : List Char).take 1 = [c0] := rfl
        have hd : (c0 :: cs ++ '.' :: fracChars : List Char).drop 1 =
            cs ++ '.' :: fracChars := rfl
        have hlast2 : (c0 :: cs ++ '.' :: fracChars : List Char).getD
            ((c0 :: cs ++ '.' :: fracChars : List Char).length - 1) ' ' =
            fracChars.getD (fracChars.length - 1) ' ' := by
          exact hlast (c0 :: cs) (by simp)
        rw [ht, hd, hlast2, if_neg (by simp [hnegf])]
        have hdl : (cs ++ '.' :: fracChars).dropLast = cs ++ '.' :: fracChars.dropLast := by
          rw [List.dropLast_append_of_ne_nil _ hfrne, hdotlast]
        rw [hdl]
        have htake : (c0 :: cs : List Char).take 1 = [c0] := rfl
        have hdrop : (c0 :: cs : List Char).drop 1 = cs := rfl
        rw [htake, hdrop]
        rfl
      · rw [List.mem_append]
        right
        exact List.mem_cons_self _ _

/-- C1: for every duplicate-free alphabet, non-empty key and text composed
only of alphabet characters, decrypting the encryption with the same key and
alphabet returns the original text. -/
theorem claim1_cipher_roundtrip (key alphabet text : List Char)
    (hk : key ≠ []) (ha : alphabet.Nodup) (ht : ∀ c ∈ text, c ∈ alphabet) :
    decryptText key (encryptText key text alphabet) alphabet = text := by
  rw [decryptText, encryptText]
  exact translateText_roundtrip key alphabet ha text

theorem claim1_cipher_roundtrip_witness :
    ("ab".toList ≠ [] ∧ ("abc".toList).Nodup ∧
      (∀ c ∈ "abcba".toList, c ∈ "abc".toList)) ∧
    decryptText "ab".toList (encryptText "ab".toList "abcba".toList "abc".toList)
      "abc".toList = "abcba".toList :=
  ⟨⟨by decide, by decide, by decide⟩,
    claim1_cipher_roundtrip "ab".toList "abc".toList "abcba".toList
      (by decide) (by decide) (by decide)⟩

/-- C6: in `translate_text` with a non-empty key, a character outside the
alphabet is emitted unchanged without advancing the key cursor; a character
of the alphabet at index `i`, with the current key character at index `j`,
is replaced by the alphabet character at `(i + j) % len(alphabet)` when
encrypting (`i - j` when decrypting) and advances the cursor cyclically; and
the output has the length of the input. -/
theorem claim6_translate_text_chars (key alphabet : List Char) (encrypt : Bool)
    (pre post : List Char) (c : Char) (hk : key ≠ []) :
    (translateText key (pre ++ c :: post) encrypt alphabet).length =
        (pre ++ c :: post).length ∧
    (c ∉ alphabet →
      translateText key (pre ++ c :: post) encrypt alphabet =
        translateText key pre encrypt alphabet ++
          c :: translateTextGo key alphabet encrypt
            (keyCursorAfter key alphabet 0 pre) post) ∧
    (c ∈ alphabet →
      translateText key (pre ++ c :: post) encrypt alphabet =
        translateText key pre encrypt alphabet ++
          alphabet.getD ((strFind alphabet c +
              (if encrypt then
                strFind alphabet (key.getD (keyCursorAfter key alphabet 0 pre) ' ')
               else
                - strFind alphabet (key.getD (keyCursorAfter key alphabet 0 pre) ' '))) %
            (alphabet.length : Int)).toNat ' ' ::
          translateTextGo key alphabet encrypt
            (advanceKey key.length (keyCursorAfter key alphabet 0 pre)) post) := by
  refine ⟨translateText_length key alphabet _ encrypt, ?_, ?_⟩
  · intro hc
    rw [translateText, translateTextGo_append key alphabet encrypt pre (c :: post) 0,
      translateTextGo_cons_not_mem key alphabet encrypt _ c post hc]
    rfl
  · intro hc
    rw [translateText, translateTextGo_append key alphabet encrypt pre (c :: post) 0,
      translateTextGo_cons_mem key alphabet encrypt _ c post
        (strFind_ne_neg_one_of_mem hc)]
    have harith : (if encrypt then (1 : Int) else -1) *
        strFind alphabet (key.getD (keyCursorAfter key alphabet 0 pre) ' ') =
        (if encrypt then
          strFind alphabet (key.getD (keyCursorAfter key alphabet 0 pre) ' ')
         else
          - strFind alphabet (key.getD (keyCursorAfter key alphabet 0 pre) ' ')) := by
      cases encrypt <;> simp
    rw [harith]
    rfl

theorem claim6_translate_text_chars_witness :
    "bc".toList ≠ [] ∧
    ((translateText "bc".toList ("a!".toList ++ 'c' :: "ba".toList) true
          "abc".toList).length = ("a!".toList ++ 'c' :: "ba".toList).length ∧
      ('c' ∉ "abc".toList →
        translateText "bc".toList ("a!".toList ++ 'c' :: "ba".toList) true
            "abc".toList =
          translateText "bc".toList "a!".toList true "abc".toList ++
            'c' :: translateTextGo "bc".toList "abc".toList true
              (keyCursorAfter "bc".toList "abc".toList 0 "a!".toList) "ba".toList) ∧
      ('c' ∈ "abc".toList →
        translateText "bc".toList ("a!".toList ++ 'c' :: "ba".toList) true
            "abc".toList =
          translateText "bc".toList "a!".toList true "abc".toList ++
            ("abc".toList).getD ((strFind "abc".toList 'c' +
                (if true then
                  strFind "abc".toList ("bc".toList.getD
                    (keyCursorAfter "bc".toList "abc".toList 0 "a!".toList) ' ')
                 else
                  - strFind "abc".toList ("bc".toList.getD
                    (keyCursorAfter "bc".toList "abc".toList 0 "a!".toList) ' '))) %
              (("abc".toList).length : Int)).toNat ' ' ::
            translateTextGo "bc".toList "abc".toList true
              (advanceKey "bc".toList.length
                (keyCursorAfter "bc".toList "abc".toList 0 "a!".toList))
              "ba".toList)) :=
  ⟨by decide, claim6_translate_text_chars "bc".toList "abc".toList true
    "a!".toList "ba".toList 'c' (by decide)⟩

/-- C3: subtracting Fields `B` from `A` replaces `A`'s local fields by the
set difference of the two local field lists; a relation named in both is
subtracted recursively, a relation absent from `B` is kept as it is, and
every relation entry whose resulting nested Fields has length zero is
removed. -/
theorem claim3_fields_subtract (l ol : List String) (r orel : List (String × Fields))
    (hnodup : (r.map Prod.fst).Nodup) :
    (Fields.sub (.mk l r) (.mk ol orel)).localFields = l.filter (fun f => f ∉ ol) ∧
    ∀ n, lookupRelated ((Fields.sub (.mk l r) (.mk ol orel)).relatedFields) n =
      match lookupRelated r n with
      | none => none
      | some s =>
        match lookupRelated orel n with
        | some t => if (Fields.sub s t).len = 0 then none else some (Fields.sub s t)
        | none => if s.len = 0 then none else some s :=
  ⟨sub_localFields l ol r orel, sub_lookup ol orel l r hnodup⟩

theorem claim3_fields_subtract_witness :
    (([("r", Fields.mk ["x", "y"] [])].map Prod.fst).Nodup) ∧
    (Fields.sub (.mk ["a", "b"] [("r", Fields.mk ["x", "y"] [])])
        (.mk ["a"] [("r", Fields.mk ["x"] [])])).localFields = ["b"] ∧
    lookupRelated ((Fields.sub (.mk ["a", "b"] [("r", Fields.mk ["x", "y"] [])])
        (.mk ["a"] [("r", Fields.mk ["x"] [])])).relatedFields) "r" =
      some (Fields.mk ["y"] []) := by
  have h := claim3_fields_subtract ["a", "b"] ["a"]
    [("r", Fields.mk ["x", "y"] [])] [("r", Fields.mk ["x"] [])] (by decide)
  refine ⟨by decide, h.1.trans (by decide), ?_⟩
  have hs : Fields.sub (Fields.mk ["x", "y"] []) (Fields.mk ["x"] []) =
      Fields.mk ["y"] [] := by
    rw [Fields.sub]
    rfl
  have h2 := h.2 "r"
  simp only [lookupRelated, if_pos] at h2
  rw [hs] at h2
  simpa using h2

/-- C4: with no other active legal reason the purpose's full field matrix is
applied; otherwise the filtered matrix is applied, whose local fields are
the purpose's own minus every other active purpose's local fields, and whose
relations are recursively filtered when shared, kept intact otherwise, and
dropped when the filtered matrix is empty. -/
theorem claim4_purpose_filtering (m : MSpec) (es : List FMElem) (others : List FM)
    (hkeys : "__ALL__" ∉ m.keys)
    (hnodup : ((relPairsFM (.mk es)).map Prod.fst).Nodup) :
    anonymizeObjMatrix m (.mk es) [] = .mk es ∧
    (others ≠ [] →
      anonymizeObjMatrix m (.mk es) others = getFilteredFields m (.mk es) others) ∧
    getLocalFieldsFM m (getFilteredFields m (.mk es) others) =
      filterLocalFieldsFM (getLocalFieldsFM m (.mk es))
        (others.map (fun o => getLocalFieldsFM m o)) ∧
    ∀ n, lookupLastFM (relPairsFM (getFilteredFields m (.mk es) others)) n =
      match lookupLastFM (relPairsFM (.mk es)) n with
      | none => none
      | some s =>
        if 0 < fmLen (filterRelFM m others n s) then some (filterRelFM m others n s)
        else none := by
  refine ⟨rfl, ?_, getFilteredFields_local m (.mk es) others hkeys,
    getFilteredFields_rel m es others hnodup⟩
  intro hne
  rw [anonymizeObjMatrix, if_neg (by simpa using hne)]

theorem claim4_purpose_filtering_witness :
    ("__ALL__" ∉ (MSpec.mk ["first_name", "email"] []).keys ∧
      ((relPairsFM (.mk [.fld "first_name", .fld "email"])).map Prod.fst).Nodup) ∧
    getLocalFieldsFM (MSpec.mk ["first_name", "email"] [])
      (getFilteredFields (MSpec.mk ["first_name", "email"] [])
        (.mk [.fld "first_name", .fld "email"]) [.mk [.fld "email"]]) =
      ["first_name"] ∧
    anonymizeObjMatrix (MSpec.mk ["first_name", "email"] [])
      (.mk [.fld "email"]) [] = .mk [.fld "email"] := by
  have h := claim4_purpose_filtering (MSpec.mk ["first_name", "email"] [])
    [.fld "first_name", .fld "email"] [.mk [.fld "email"]] (by decide) (by decide)
  have h2 := claim4_purpose_filtering (MSpec.mk ["first_name", "email"] [])
    [.fld "email"] [] (by decide) (by decide)
  exact ⟨⟨by decide, by decide⟩, h.2.2.1.trans (by decide), h2.1⟩

/-- C5: anonymization is idempotent: a second `anonymize_obj` with the same
selection returns the state of the first call unchanged, because every field
carrying an active `AnonymizedData` marker is filtered out of the candidate
list before any codec runs. -/
theorem claim5_anonymization_idempotent {V K : Type} [DecidableEq V]
    (a : String → FieldAnonymizerSpec V K) (mr : Bool) (k : String → K)
    (sel : List String) (st st₁ : ObjState V)
    (h : anonymizeObjLocal a mr k sel st = .ok st₁) :
    anonymizeObjLocal a mr k sel st₁ = .ok st₁ :=
  anonymizeObjLocal_idem a mr k sel st st₁ h

theorem claim5_anonymization_idempotent_witness :
    anonymizeObjLocal exAnons true (fun _ => ()) ["a"] exState = .ok exStateOnce ∧
    anonymizeObjLocal exAnons true (fun _ => ()) ["a"] exStateOnce = .ok exStateOnce :=
  ⟨rfl, claim5_anonymization_idempotent exAnons true (fun _ => ()) ["a"]
    exState exStateOnce rfl⟩

/-- C2 counterexample: deanonymizing a selection that contains the marked
field "b" whose field anonymizer is irreversible, on a model whose
anonymization is reversible, does not raise and does not abort: the call
returns a state in which the reversible field "a" is modified while "b" is
silently skipped, keeping its value and its marker. -/
theorem claim2_counterexample_silent_skip :
    (deanonymizeObjLocal cexFieldAnonymizers true (fun _ => ()) ["a", "b"]
        cexState).map
      (fun st => (st.values "a", st.values "b", st.marked "a", st.marked "b")) =
      .ok (4, 7, false, true) ∧
    (cexFieldAnonymizers "b").isReversibleFlag = false ∧
    cexState.marked "b" = true ∧ cexState.values "a" = 5 ∧ cexState.values "b" = 7 :=
  ⟨rfl, rfl, rfl, rfl, rfl⟩

/-- C2 (amended): deanonymization raises `IrreversibleAnonymizerException`
only for a model whose `Meta.reversible_anonymization` is disabled, and then
returns no state; on a reversible model the call succeeds, and every field
whose field anonymizer reports irreversible is silently dropped from the
candidate list, keeping its stored value and its anonymization marker. -/
theorem claim2_deanonymize_irreversible {V K : Type} [DecidableEq V]
    (a : String → FieldAnonymizerSpec V K) (k : String → K) (sel : List String)
    (st st' : ObjState V) (f : String)
    (h : deanonymizeObjLocal a true k sel st = .ok st')
    (hirr : (a f).isReversibleFlag = false) :
    deanonymizeObjLocal a false k sel st = .error () ∧
    st'.values f = st.values f ∧ st'.marked f = st.marked f := by
  refine ⟨by rw [deanonymizeObjLocal, updateObj, if_pos (by simp)], ?_⟩
  rw [deanonymizeObjLocal, updateObj_deanonymize_eq] at h
  have hnotmem : f ∉ sel.filter (fun g => st.marked g && (a g).isReversibleFlag) := by
    intro hmem
    have h2 := (List.mem_filter.mp hmem).2
    simp only [Bool.and_eq_true] at h2
    rw [hirr] at h2
    exact absurd h2.2 (by simp)
  by_cases hraw : sel.filter (fun g => st.marked g && (a g).isReversibleFlag) = []
  · rw [if_pos hraw] at h
    cases Except.ok.inj h
    exact ⟨rfl, rfl⟩
  · rw [if_neg hraw] at h
    have hst := (Except.ok.inj h).symm
    subst hst
    have hcont : (sel.filter
        (fun g => st.marked g && (a g).isReversibleFlag)).contains f = false := by
      simpa using hnotmem
    constructor
    · show applyUpdates st.values _ f = st.values f
      apply applyUpdates_not_mem
      rw [List.map_map]
      simpa using hnotmem
    · show (st.marked f && !(List.contains _ f)) = st.marked f
      rw [hcont]
      simp

theorem claim2_deanonymize_irreversible_witness :
    (deanonymizeObjLocal cexFieldAnonymizers true (fun _ => ()) ["a", "b"] cexState =
        .ok cexStateAfter ∧
      (cexFieldAnonymizers "b").isReversibleFlag = false) ∧
    deanonymizeObjLocal cexFieldAnonymizers false (fun _ => ()) ["a", "b"] cexState =
        .error () ∧
    cexStateAfter.values "b" = cexState.values "b" ∧
    cexStateAfter.marked "b" = cexState.marked "b" :=
  ⟨⟨rfl, rfl⟩, claim2_deanonymize_irreversible cexFieldAnonymizers (fun _ => ())
    ["a", "b"] cexState cexStateAfter "b" rfl rfl⟩

/-- C7: from a Czech account number in valid checksum format, `n` forward
valid-checksum steps produce a number that itself passes
`check_account_format` — so the smart codec's output is checksum-valid —
and are undone exactly by `n` backward valid-checksum steps. -/
theorem claim7_account_steps (p : Option Nat) (n x : Nat)
    (hx : checkAccountFormat p x = true) (hle : x ≤ 9999999999) :
    checkAccountFormat p (bruteForceNextN p n x) = true ∧
    bruteForcePrevN p n (bruteForceNextN p n x) = x := by
  obtain ⟨h1, _, h3⟩ := bruteForceN_spec p n x hx hle
  exact ⟨h1, h3⟩

theorem claim7_account_steps_witness :
    (checkAccountFormat none 19 = true ∧ (19 : Nat) ≤ 9999999999) ∧
    checkAccountFormat none (bruteForceNextN none 2 19) = true ∧
    bruteForcePrevN none 2 (bruteForceNextN none 2 19) = 19 :=
  ⟨⟨by decide, by decide⟩, claim7_account_steps none 2 19 (by decide) (by decide)⟩

/-- C8 counterexample: the JSON codec does not number-translate floats; it
returns them unchanged, as encrypting the float `1.5` with key `"2"` shows,
while `translate_number` on the same characters yields a different string. -/
theorem claim8_counterexample_float_unchanged :
    anonymizeJsonValue "2".toList true (.float "1.5".toList) = .float "1.5".toList ∧
    translateNumberChars "2".toList "1.5".toList true ≠ "1.5".toList :=
  ⟨rfl, by decide⟩

/-- C8 (amended): the JSON codec translates every string by text
substitution over the JSON-safe alphabet, every integer by number
translation, flips every boolean exactly when the numeric key derived from
the encryption key is even, recurses elementwise into objects and arrays,
and leaves null and floats unchanged; decryption is the structural mirror,
so decrypting the encrypted tree with the same key returns the original
tree. -/
theorem claim8_json_codec (key : List Char) (an b : Bool) (n : Int)
    (s r : List Char) (ms : JsonMembers) (es : JsonElems) (v : JsonValue) :
    anonymizeJsonValue key an (.str s) =
      .str (translateText key s an JSON_SAFE_CHARS) ∧
    anonymizeJsonValue key an (.int n) = .int (translateNumberInt key n an) ∧
    anonymizeJsonValue key an (.float r) = .float r ∧
    anonymizeJsonValue key an .null = .null ∧
    anonymizeJsonValue key an (.bool b) =
      .bool (if numerizeKey key % 2 == 0 then !b else b) ∧
    anonymizeJsonValue key an (.obj ms) = .obj (anonymizeJsonMembers key an ms) ∧
    anonymizeJsonValue key an (.arr es) = .arr (anonymizeJsonElems key an es) ∧
    anonymizeJsonValue key false (anonymizeJsonValue key true v) = v := by
  refine ⟨rfl, rfl, rfl, rfl, ?_, rfl, rfl, anonymizeJsonValue_roundtrip key v⟩
  simp only [anonymizeJsonValue]
  by_cases hp : (numerizeKey key % 2 == 0) = true
  · rw [if_pos hp, if_pos hp]
  · rw [if_neg hp, if_neg hp]

/-- C9 counterexample: on a decimal value the final digit is translated
over the zero-free alphabet `1..9`, not over `0..9` as the claim's "the
remaining digits within 0..9" demands: with key `"2"`,
`translate_number("1.9")` gives `"2.1"`, where a shift of the last digit
within `0..9` would give `'0'`. -/
theorem claim9_counterexample_last_digit :
    translateNumberChars "2".toList "1.9".toList true = "2.1".toList ∧
    translateText "2".toList ['9'] true NUMBERS = ['0'] ∧
    translateText "2".toList ['9'] true NUMBERS_WITHOUT_ZERO = ['1'] :=
  ⟨by decide, by decide, by decide⟩

/-- C9 (amended): `translate_number` preserves the sign and the position of
the decimal point; the leading digit of the integer part and, when a
decimal point is present, the final fraction digit are shifted within the
zero-free alphabet `1..9`, every other digit within `0..9`; a nonzero
leading digit therefore never becomes `0`; the translated decimal string
keeps its length; and the numeric field key is `numerize_key(key) % 10^g`
with `g = get_number_guess_len(value)` odd, so the key stays below `10^g`. -/
theorem claim9_number_translation (key : List Char) (b : Bool) (n : Int)
    (neg : Bool) (ip : Nat) (fc : List Char)
    (hfs : ∀ c ∈ fc, c ∈ NUMBERS) (hfc : fc ≠ []) (hip : ip ≠ 0) :
    (translateNumberChars key (intToChars n) b =
      (if n < 0 then ['-'] else []) ++
        translateText key ((natToChars n.natAbs).take 1) b NUMBERS_WITHOUT_ZERO ++
        translateText key ((natToChars n.natAbs).drop 1) b NUMBERS) ∧
    (translateNumberChars key (decimalChars neg ip fc) b =
      (if neg then ['-'] else []) ++
        translateText key ((natToChars ip).take 1) b NUMBERS_WITHOUT_ZERO ++
        translateText key ((natToChars ip).drop 1 ++ '.' :: fc.dropLast) b NUMBERS ++
        translateText key [fc.getD (fc.length - 1) ' '] b NUMBERS_WITHOUT_ZERO) ∧
    (∀ c ∈ translateText key ((natToChars ip).take 1) b NUMBERS_WITHOUT_ZERO,
      c ∈ NUMBERS_WITHOUT_ZERO) ∧
    (translateNumberChars key (decimalChars neg ip fc) b).length =
      (decimalChars neg ip fc).length ∧
    getNumberGuessLen n % 2 = 1 ∧
    getNumericEncryptionKey none key (some n) =
      numerizeKey key % 10 ^ getNumberGuessLen n ∧
    getNumericEncryptionKey none key (some n) < 10 ^ getNumberGuessLen n := by
  have hlen1 : 1 ≤ (natToChars ip).length := by
    cases h : natToChars ip with
    | nil => exact absurd h (natToChars_ne_nil ip)
    | cons a as => simp
  have hfc1 : 1 ≤ fc.length := by
    cases fc with
    | nil => exact absurd rfl hfc
    | cons a as => simp
  have hstr1 : 1 ≤ strIntLen n := by
    rw [strIntLen, intToChars]
    by_cases hn : n < 0
    · rw [if_pos hn]
      simp
    · rw [if_neg hn]
      cases h : natToChars n.toNat with
      | nil => exact absurd h (natToChars_ne_nil n.toNat)
      | cons a as => simp [h]
  refine ⟨translateNumberChars_int key b n,
    translateNumberChars_decimal key b neg ip fc hfs hfc, ?_, ?_, ?_, rfl, ?_⟩
  · intro c hc
    have hall : ∀ x ∈ (natToChars ip).take 1, x ∈ NUMBERS_WITHOUT_ZERO := by
      cases h : natToChars ip with
      | nil => exact absurd h (natToChars_ne_nil ip)
      | cons a as =>
        intro x hx
        have hx1 : x = a := by
          rw [show (a :: as : List Char).take 1 = [a] from rfl] at hx
          simpa using hx
        subst hx1
        exact natToChars_head_mem_NWZ hip x (by rw [h]; rfl)
    exact translateTextGo_mem_all key NUMBERS_WITHOUT_ZERO b _ 0 hall c hc
  · rw [translateNumberChars_decimal key b neg ip fc hfs hfc, decimalChars]
    simp only [List.length_append, translateText_length, List.length_take,
      List.length_cons, List.length_dropLast, List.length_singleton]
    cases neg <;> simp <;> omega
  · rw [getNumberGuessLen]
    by_cases hodd : strIntLen n % 2 ≠ 0
    · rw [if_pos hodd]
      omega
    · rw [if_neg hodd]
      omega
  · exact Nat.mod_lt _ (by positivity)

theorem claim9_number_translation_witness :
    ((∀ c ∈ "9".toList, c ∈ NUMBERS) ∧ "9".toList ≠ [] ∧ (1 : Nat) ≠ 0) ∧
    translateNumberChars "2".toList (decimalChars false 1 "9".toList) true =
      "2.1".toList ∧
    getNumericEncryptionKey none "2".toList (some 19) =
      numerizeKey "2".toList % 10 ^ 1 := by
  have h := claim9_number_translation "2".toList true 19 false 1 "9".toList
    (by decide) (by decide) (by decide)
  refine ⟨⟨by decide, by decide, by decide⟩, h.2.1.trans (by decide), ?_⟩
  exact (h.2.2.2.2.2.1).trans (by decide)

/-- C10 counterexample: on the deanonymization path the reversibility check
runs before the empty-value check, so an irreversible anonymizer raises
even for a value of its `empty_values` instead of returning it unchanged. -/
theorem claim10_counterexample_empty_raises :
    getIsValueEmpty cexEmptySpec none = true ∧
    getDeanonymizedValueFromValue cexEmptySpec none () = .error () :=
  ⟨rfl, rfl⟩

/-- C10 (amended): for every field anonymizer with `ignore_empty_values`
enabled and every value of its `empty_values`, anonymization returns the
value unchanged without invoking the transform; deanonymization returns it
unchanged when the anonymizer is reversible, but raises for an irreversible
anonymizer, because the reversibility check precedes the empty check. -/
theorem claim10_empty_values (V K : Type) [DecidableEq V]
    (a : FieldAnonymizerSpec V K) (v : V) (k : K)
    (hempty : getIsValueEmpty a v = true) :
    getAnonymizedValueFromValue a v k = v ∧
    (a.isReversibleFlag = true → getDeanonymizedValueFromValue a v k = .ok v) ∧
    (a.isReversibleFlag = false →
      getDeanonymizedValueFromValue a v k = .error ()) := by
  refine ⟨?_, ?_, ?_⟩
  · rw [getAnonymizedValueFromValue, if_pos hempty]
  · intro hrev
    rw [getDeanonymizedValueFromValue, if_pos hrev, if_pos hempty]
  · intro hirr
    rw [getDeanonymizedValueFromValue, if_neg (by simp [hirr])]

theorem claim10_empty_values_witness :
    getIsValueEmpty exEmptySpec (some "") = true ∧
    getAnonymizedValueFromValue exEmptySpec (some "") () = some "" ∧
    getDeanonymizedValueFromValue exEmptySpec (some "") () = .ok (some "") := by
  have h := claim10_empty_values (Option String) Unit exEmptySpec (some "") ()
    (by decide)
  exact ⟨by decide, h.1, h.2.1 rfl⟩

end GDPR
